import Mathlib

/-!
Shallow embedding of the Barnes-Hut N-body simulator (`src/particles.py`,
`src/main.py`) over the real numbers, together with theorems settling the
frozen claims about its specification.

Python floats are modelled as real numbers; NumPy 3-vectors as `Vec3`;
the fallible `BarnesHutNode.__init__` (which can raise `ValueError` via
`min()` on an empty sequence, and which can recurse unboundedly on
coincident particles) as an `Option`-returning constructor with explicit
recursion fuel: `some t` means the Python constructor terminates and
builds exactly `t`.
-/

/-- A 3-component real vector, modelling a NumPy array of shape (3,). -/
@[ext]
structure Vec3 where
  x : ℝ
  y : ℝ
  z : ℝ

namespace Vec3

/-- Componentwise addition, modelling NumPy elementwise `+`. -/
def add (a b : Vec3) : Vec3 := ⟨a.x + b.x, a.y + b.y, a.z + b.z⟩

/-- Componentwise subtraction, modelling NumPy elementwise `-`. -/
def sub (a b : Vec3) : Vec3 := ⟨a.x - b.x, a.y - b.y, a.z - b.z⟩

/-- Componentwise negation. -/
def neg (a : Vec3) : Vec3 := ⟨-a.x, -a.y, -a.z⟩

/-- Scalar multiplication, modelling `scalar * array`. -/
def smul (c : ℝ) (a : Vec3) : Vec3 := ⟨c * a.x, c * a.y, c * a.z⟩

/-- The zero vector, modelling `np.zeros(3)`. -/
def zero : Vec3 := ⟨0, 0, 0⟩

instance : Zero Vec3 := ⟨zero⟩
instance : Add Vec3 := ⟨add⟩
instance : Sub Vec3 := ⟨sub⟩
instance : Neg Vec3 := ⟨neg⟩
instance : SMul ℝ Vec3 := ⟨smul⟩

@[simp] theorem zero_x : (0 : Vec3).x = 0 := rfl
@[simp] theorem zero_y : (0 : Vec3).y = 0 := rfl
@[simp] theorem zero_z : (0 : Vec3).z = 0 := rfl
@[simp] theorem add_x (a b : Vec3) : (a + b).x = a.x + b.x := rfl
@[simp] theorem add_y (a b : Vec3) : (a + b).y = a.y + b.y := rfl
@[simp] theorem add_z (a b : Vec3) : (a + b).z = a.z + b.z := rfl
@[simp] theorem sub_x (a b : Vec3) : (a - b).x = a.x - b.x := rfl
@[simp] theorem sub_y (a b : Vec3) : (a - b).y = a.y - b.y := rfl
@[simp] theorem sub_z (a b : Vec3) : (a - b).z = a.z - b.z := rfl
@[simp] theorem neg_x (a : Vec3) : (-a).x = -a.x := rfl
@[simp] theorem neg_y (a : Vec3) : (-a).y = -a.y := rfl
@[simp] theorem neg_z (a : Vec3) : (-a).z = -a.z := rfl
@[simp] theorem smul_x (c : ℝ) (a : Vec3) : (c • a).x = c * a.x := rfl
@[simp] theorem smul_y (c : ℝ) (a : Vec3) : (c • a).y = c * a.y := rfl
@[simp] theorem smul_z (c : ℝ) (a : Vec3) : (c • a).z = c * a.z := rfl
instance : AddCommMonoid Vec3 where
  add_assoc a b c := by ext <;> simp [add_assoc]
  zero_add a := by ext <;> simp
  add_zero a := by ext <;> simp
  add_comm a b := by ext <;> simp [add_comm]
  nsmul := nsmulRec

/-- The cross product, modelling `np.cross`. -/
def cross (a b : Vec3) : Vec3 :=
  ⟨a.y * b.z - a.z * b.y, a.z * b.x - a.x * b.z, a.x * b.y - a.y * b.x⟩

/-- Squared Euclidean length of a vector. -/
def normSq (v : Vec3) : ℝ := v.x ^ 2 + v.y ^ 2 + v.z ^ 2

/-- Euclidean length, modelling `np.linalg.norm`. -/
noncomputable def norm (v : Vec3) : ℝ := Real.sqrt v.normSq

theorem normSq_nonneg (v : Vec3) : 0 ≤ v.normSq := by
  have hx : (0:ℝ) ≤ v.x ^ 2 := sq_nonneg _
  have hy : (0:ℝ) ≤ v.y ^ 2 := sq_nonneg _
  have hz : (0:ℝ) ≤ v.z ^ 2 := sq_nonneg _
  unfold normSq; linarith

theorem norm_nonneg' (v : Vec3) : 0 ≤ v.norm := Real.sqrt_nonneg _

theorem normSq_eq_zero_iff (v : Vec3) : v.normSq = 0 ↔ v = 0 := by
  constructor
  · intro h
    have hx : (0:ℝ) ≤ v.x ^ 2 := sq_nonneg _
    have hy : (0:ℝ) ≤ v.y ^ 2 := sq_nonneg _
    have hz : (0:ℝ) ≤ v.z ^ 2 := sq_nonneg _
    unfold normSq at h
    have hx0 : v.x ^ 2 = 0 := by linarith
    have hy0 : v.y ^ 2 = 0 := by linarith
    have hz0 : v.z ^ 2 = 0 := by linarith
    ext
    · exact (pow_eq_zero_iff (two_ne_zero)).mp hx0
    · exact (pow_eq_zero_iff (two_ne_zero)).mp hy0
    · exact (pow_eq_zero_iff (two_ne_zero)).mp hz0
  · intro h; subst h; simp [normSq]

theorem norm_eq_zero_iff (v : Vec3) : v.norm = 0 ↔ v = 0 := by
  unfold norm
  rw [Real.sqrt_eq_zero (normSq_nonneg v)]
  exact normSq_eq_zero_iff v

@[simp] theorem norm_zero' : (0 : Vec3).norm = 0 := by
  rw [norm_eq_zero_iff]

/-- The norm of a vector supported on the x-axis is the absolute value of
its x-component. -/
theorem norm_xaxis (a : ℝ) : (⟨a, 0, 0⟩ : Vec3).norm = |a| := by
  unfold norm normSq
  simp [Real.sqrt_sq_eq_abs]

end Vec3

/-- Newton's gravitational constant, `scipy.constants.G`. -/
noncomputable def Gconst : ℝ := 6.6743e-11

/-- Vacuum permittivity, `scipy.constants.epsilon_0`. -/
noncomputable def epsilon0 : ℝ := 8.8541878128e-12

/-- Vacuum permeability, `scipy.constants.mu_0`. -/
noncomputable def mu0 : ℝ := 1.25663706212e-6

/-- The Coulomb constant `k = 1 / (4 * np.pi * scipy.constants.epsilon_0)`
as computed in `get_electric_field_exerted`. -/
noncomputable def kCoulomb : ℝ := 1 / (4 * Real.pi * epsilon0)

theorem Gconst_pos : 0 < Gconst := by unfold Gconst; norm_num

theorem epsilon0_pos : 0 < epsilon0 := by unfold epsilon0; norm_num

theorem mu0_pos : 0 < mu0 := by unfold mu0; norm_num

theorem kCoulomb_pos : 0 < kCoulomb := by
  unfold kCoulomb
  have h1 := Real.pi_pos
  have h2 := epsilon0_pos
  exact div_pos one_pos (by nlinarith)

/-- A point particle, modelling `particles.PointParticle`: mutable
kinematic state, constant mass, charge and ID. The ID is an integer so
that it can be compared with the `-1` sentinel of the field queries. -/
structure PointParticle where
  position : Vec3
  velocity : Vec3
  acceleration : Vec3
  MASS : ℝ
  CHARGE : ℝ
  ID : ℤ

namespace PointParticle

open Classical

/-- Model of `PointParticle.__init__`: the constructor performs plain
assignments and assigns the next counter value as the ID; it contains no
validation of any argument (in particular none of `mass`). -/
def init (position velocity acceleration : Vec3) (mass charge : ℝ)
    (currentId : ℤ) : PointParticle :=
  { position := position
    velocity := velocity
    acceleration := acceleration
    MASS := mass
    CHARGE := charge
    ID := currentId }

/-- Model of the class-level `current_id` counter: constructing the
particles of a list one by one assigns IDs `start, start + 1, ...`.
The Python counter starts at `0` for a fresh process. -/
def initList (start : ℤ) :
    List (Vec3 × Vec3 × Vec3 × ℝ × ℝ) → List PointParticle
  | [] => []
  | (pos, vel, acc, m, q) :: rest =>
      init pos vel acc m q start :: initList (start + 1) rest

/-- Model of `PointParticle.get_gravitational_field_exerted`. -/
noncomputable def get_gravitational_field_exerted (self : PointParticle)
    (point : Vec3) : Vec3 :=
  let r := point - self.position
  let distance := r.norm
  if distance = 0 then 0
  else (-(Gconst * self.MASS / distance ^ 3)) • r

/-- Model of `PointParticle.get_electric_field_exerted`. Note the source
returns `-r * k * self.CHARGE / distance ** 3`. -/
noncomputable def get_electric_field_exerted (self : PointParticle)
    (point : Vec3) : Vec3 :=
  let r := point - self.position
  let distance := r.norm
  if distance = 0 then 0
  else (-(kCoulomb * self.CHARGE / distance ^ 3)) • r

/-- Model of `PointParticle.get_magnetic_field_exerted`. -/
noncomputable def get_magnetic_field_exerted (self : PointParticle)
    (point : Vec3) : Vec3 :=
  let r := point - self.position
  let distance := r.norm
  if distance = 0 then 0
  else (mu0 * self.CHARGE / (4 * Real.pi * distance ^ 3)) •
    Vec3.cross self.velocity r

/-- Model of `PointParticle.get_gravitational_force_experienced`. -/
def get_gravitational_force_experienced (self : PointParticle)
    (gravitational_field : Vec3) : Vec3 :=
  self.MASS • gravitational_field

/-- Model of `PointParticle.get_electrostatic_force_experienced`. -/
def get_electrostatic_force_experienced (self : PointParticle)
    (electric_field : Vec3) : Vec3 :=
  self.CHARGE • electric_field

/-- Model of `PointParticle.get_magnetic_force_experienced`; the optional
`velocity` argument defaults to the particle's own velocity. -/
def get_magnetic_force_experienced (self : PointParticle)
    (magnetic_field : Vec3) (velocity : Option Vec3) : Vec3 :=
  self.CHARGE •
    Vec3.cross (velocity.getD self.velocity) magnetic_field

/-- Model of `PointParticle.get_force_experienced`. -/
def get_force_experienced (self : PointParticle)
    (gravitational_field electric_field magnetic_field : Vec3)
    (velocity : Option Vec3) : Vec3 :=
  self.get_gravitational_force_experienced gravitational_field
    + self.get_electrostatic_force_experienced electric_field
    + self.get_magnetic_force_experienced magnetic_field velocity

end PointParticle

/-- A pair of lower and upper bounds for one axis, modelling the
2-element NumPy bound arrays of `BarnesHutNode`. -/
structure Bounds where
  lo : ℝ
  hi : ℝ

/-- Result of `BarnesHutNode.cube_bounds`: the cubed bounds, the
centroid, and the size (the previous maximum dimension). -/
structure CubeResult where
  xB : Bounds
  yB : Bounds
  zB : Bounds
  centroid : Vec3
  size : ℝ

open Classical

/-- Model of the static method `BarnesHutNode.cube_bounds`. -/
noncomputable def cube_bounds (xB yB zB : Bounds) : CubeResult :=
  let centroid : Vec3 :=
    ⟨(xB.lo + xB.hi) / 2, (yB.lo + yB.hi) / 2, (zB.lo + zB.hi) / 2⟩
  let width := xB.hi - xB.lo
  let length := yB.hi - yB.lo
  let height := zB.hi - zB.lo
  let size := max width (max length height)
  if width = length ∧ length = height then
    ⟨xB, yB, zB, centroid, size⟩
  else
    let half_size := size / 2
    ⟨⟨centroid.x - half_size, centroid.x + half_size⟩,
     ⟨centroid.y - half_size, centroid.y + half_size⟩,
     ⟨centroid.z - half_size, centroid.z + half_size⟩,
     centroid, size⟩

/-- Minimum of a nonempty list of reals, modelling Python `min`. -/
noncomputable def listMin (x : ℝ) (xs : List ℝ) : ℝ := xs.foldl min x

/-- Maximum of a nonempty list of reals, modelling Python `max`. -/
noncomputable def listMax (x : ℝ) (xs : List ℝ) : ℝ := xs.foldl max x

/-- Model of the per-axis bound inference in `BarnesHutNode.__init__`:
`min(particles, key=...)`/`max(particles, key=...)` raise `ValueError`
on an empty particle list, modelled as `none`. -/
noncomputable def inferAxisBounds (coord : PointParticle → ℝ) :
    List PointParticle → Option Bounds
  | [] => none
  | p :: rest =>
      some ⟨listMin (coord p) (rest.map coord), listMax (coord p) (rest.map coord)⟩

/-- Resolve one axis of optional bounds: a given bound is used as is,
an omitted bound is inferred from the particle positions. -/
noncomputable def resolveAxisBounds (coord : PointParticle → ℝ)
    (particles : List PointParticle) : Option Bounds → Option Bounds
  | some b => some b
  | none => inferAxisBounds coord particles

/-- Model of `BarnesHutNode.particle_within_bounds`: inclusive on both
ends of every axis. -/
def particle_within_bounds (xB yB zB : Bounds) (particle : PointParticle) : Prop :=
  xB.lo ≤ particle.position.x ∧ particle.position.x ≤ xB.hi
    ∧ yB.lo ≤ particle.position.y ∧ particle.position.y ≤ yB.hi
    ∧ zB.lo ≤ particle.position.z ∧ particle.position.z ≤ zB.hi

noncomputable instance (xB yB zB : Bounds) (p : PointParticle) :
    Decidable (particle_within_bounds xB yB zB p) :=
  Classical.propDecidable _

/-- The list comprehension filtering `particles` to those within bounds. -/
noncomputable def filterWithin (xB yB zB : Bounds) :
    List PointParticle → List PointParticle
  | [] => []
  | p :: rest =>
      if particle_within_bounds xB yB zB p
      then p :: filterWithin xB yB zB rest
      else filterWithin xB yB zB rest

/-- Sum of the masses of a list of particles. -/
def totalMass (ps : List PointParticle) : ℝ := (ps.map (·.MASS)).sum

/-- Mass moment `sum(particle.MASS * particle.position)`. -/
def massMoment (ps : List PointParticle) : Vec3 :=
  (ps.map (fun p => p.MASS • p.position)).sum

/-- Sum of the charges of a list of particles. -/
def totalCharge (ps : List PointParticle) : ℝ := (ps.map (·.CHARGE)).sum

/-- Charge moment `sum(particle.CHARGE * particle.position)`. -/
def chargeMoment (ps : List PointParticle) : Vec3 :=
  (ps.map (fun p => p.CHARGE • p.position)).sum

/-- Current moment `sum(particle.CHARGE * particle.velocity)`. -/
def currentMoment (ps : List PointParticle) : Vec3 :=
  (ps.map (fun p => p.CHARGE • p.velocity)).sum

/-- A constructed Barnes-Hut octree node with its stored attributes, in
the order they are assigned by `BarnesHutNode.__init__`. -/
inductive BHTree : Type where
  | mk (xB yB zB : Bounds) (SIZE : ℝ) (PARTICLES : List PointParticle)
      (TOTAL_MASS : ℝ) (CENTER_OF_MASS : Vec3)
      (TOTAL_CHARGE : ℝ) (CENTER_OF_CHARGE : Vec3)
      (CENTER_OF_CHARGE_VELOCITY : Vec3)
      (CHILD_NODES : List BHTree) : BHTree

namespace BHTree

/-- The `X_BOUNDS` attribute. -/
def xBounds : BHTree → Bounds | .mk xB _ _ _ _ _ _ _ _ _ _ => xB

/-- The `Y_BOUNDS` attribute. -/
def yBounds : BHTree → Bounds | .mk _ yB _ _ _ _ _ _ _ _ _ => yB

/-- The `Z_BOUNDS` attribute. -/
def zBounds : BHTree → Bounds | .mk _ _ zB _ _ _ _ _ _ _ _ => zB

/-- The `SIZE` attribute. -/
def SIZE : BHTree → ℝ | .mk _ _ _ s _ _ _ _ _ _ _ => s

/-- The `PARTICLES` attribute. -/
def PARTICLES : BHTree → List PointParticle | .mk _ _ _ _ ps _ _ _ _ _ _ => ps

/-- The `TOTAL_MASS` attribute. -/
def TOTAL_MASS : BHTree → ℝ | .mk _ _ _ _ _ tm _ _ _ _ _ => tm

/-- The `CENTER_OF_MASS` attribute. -/
def CENTER_OF_MASS : BHTree → Vec3 | .mk _ _ _ _ _ _ com _ _ _ _ => com

/-- The `TOTAL_CHARGE` attribute. -/
def TOTAL_CHARGE : BHTree → ℝ | .mk _ _ _ _ _ _ _ tc _ _ _ => tc

/-- The `CENTER_OF_CHARGE` attribute. -/
def CENTER_OF_CHARGE : BHTree → Vec3 | .mk _ _ _ _ _ _ _ _ cc _ _ => cc

/-- The `CENTER_OF_CHARGE_VELOCITY` attribute. -/
def CENTER_OF_CHARGE_VELOCITY : BHTree → Vec3
  | .mk _ _ _ _ _ _ _ _ _ ccv _ => ccv

/-- The `CHILD_NODES` attribute. -/
def CHILD_NODES : BHTree → List BHTree | .mk _ _ _ _ _ _ _ _ _ _ cs => cs

end BHTree

/-- Sequence a list of optional child nodes: if any child construction
fails (raises), the whole construction fails. -/
def seqOpt : List (Option BHTree) → Option (List BHTree)
  | [] => some []
  | none :: _ => none
  | some t :: rest => (seqOpt rest).map (t :: ·)

/-- The eight octant bounds generated by `create_child_nodes`, in loop
order: x outermost, then y, then z. Each lower corner comes from
`np.linspace(lo, hi, num=2, endpoint=False)` and each upper bound is
`lower + SIZE / 2`. -/
noncomputable def octantBounds (xB yB zB : Bounds) (size : ℝ) :
    List (Bounds × Bounds × Bounds) :=
  let child_size := size / 2
  let xs : List ℝ := [xB.lo, xB.lo + (xB.hi - xB.lo) / 2]
  let ys : List ℝ := [yB.lo, yB.lo + (yB.hi - yB.lo) / 2]
  let zs : List ℝ := [zB.lo, zB.lo + (zB.hi - zB.lo) / 2]
  xs.flatMap (fun lx => ys.flatMap (fun ly => zs.map (fun lz =>
    (⟨lx, lx + child_size⟩, ⟨ly, ly + child_size⟩, ⟨lz, lz + child_size⟩))))

/-- The body of `BarnesHutNode.__init__` with child construction
abstracted: resolve the bounds (failing like Python `min`/`max` on an
empty list when a bound is omitted), cube them, filter the particles,
compute the aggregate moments, and create children exactly when the node
holds more than one particle and has positive size. -/
noncomputable def assembleNode (particles : List PointParticle)
    (xb? yb? zb? : Option Bounds)
    (mkKids : List PointParticle → Bounds → Bounds → Bounds → ℝ →
      Option (List BHTree)) : Option BHTree :=
  match resolveAxisBounds (fun p => p.position.x) particles xb?,
      resolveAxisBounds (fun p => p.position.y) particles yb?,
      resolveAxisBounds (fun p => p.position.z) particles zb? with
  | some xB0, some yB0, some zB0 =>
      let c := cube_bounds xB0 yB0 zB0
      let ps := filterWithin c.xB c.yB c.zB particles
      let tm := totalMass ps
      let com := if tm ≠ 0 then (1 / tm) • massMoment ps else c.centroid
      let tc := totalCharge ps
      let cc := if tc ≠ 0 then (1 / tc) • chargeMoment ps else (0 : Vec3)
      let ccv := if tc ≠ 0 then (1 / tc) • currentMoment ps else (0 : Vec3)
      if 1 < ps.length ∧ 0 < c.size then
        match mkKids ps c.xB c.yB c.zB c.size with
        | none => none
        | some kids =>
            some (.mk c.xB c.yB c.zB c.size ps tm com tc cc ccv kids)
      else some (.mk c.xB c.yB c.zB c.size ps tm com tc cc ccv [])
  | _, _, _ => none

/-- Model of `BarnesHutNode.__init__` / `create_child_nodes` with
recursion fuel: `mkNode fuel particles xb? yb? zb? = some t` means the
Python constructor terminates and builds exactly the node `t`; `none`
models a raised error or recursion beyond the fuel. -/
noncomputable def mkNode : ℕ → List PointParticle →
    Option Bounds → Option Bounds → Option Bounds → Option BHTree
  | 0, particles, xb?, yb?, zb? =>
      assembleNode particles xb? yb? zb? (fun _ _ _ _ _ => none)
  | fuel + 1, particles, xb?, yb?, zb? =>
      assembleNode particles xb? yb? zb?
        (fun ps xB yB zB size =>
          seqOpt ((octantBounds xB yB zB size).map
            (fun b => mkNode fuel ps (some b.1) (some b.2.1) (some b.2.2))))

namespace BHTree

/-- Model of `BarnesHutNode.get_gravitational_field_exerted`. -/
noncomputable def get_gravitational_field_exerted :
    BHTree → Vec3 → ℝ → ℤ → Vec3
  | .mk _ _ _ size particles tm com _ _ _ children, point, theta, particle_id =>
    let r := point - com
    let distance := r.norm
    if distance = 0 then 0
    else if size < theta * distance then
      (-(Gconst * tm / distance ^ 3)) • r
    else if 0 < children.length then
      (children.attach.map (fun c =>
        get_gravitational_field_exerted c.1 point theta particle_id)).sum
    else
      ((particles.filter (fun p => p.ID ≠ particle_id)).map
        (fun p => p.get_gravitational_field_exerted point)).sum
termination_by t _ _ _ => sizeOf t
decreasing_by
  have h := List.sizeOf_lt_of_mem c.2
  simp only [BHTree.mk.sizeOf_spec]
  omega

/-- Model of `BarnesHutNode.get_electric_field_exerted`. -/
noncomputable def get_electric_field_exerted :
    BHTree → Vec3 → ℝ → ℤ → Vec3
  | .mk _ _ _ size particles _ _ tc cc _ children, point, theta, particle_id =>
    let r := point - cc
    let distance := r.norm
    if distance = 0 then 0
    else if size < theta * distance then
      (-(kCoulomb * tc / distance ^ 3)) • r
    else if 0 < children.length then
      (children.attach.map (fun c =>
        get_electric_field_exerted c.1 point theta particle_id)).sum
    else
      ((particles.filter (fun p => p.ID ≠ particle_id)).map
        (fun p => p.get_electric_field_exerted point)).sum
termination_by t _ _ _ => sizeOf t
decreasing_by
  have h := List.sizeOf_lt_of_mem c.2
  simp only [BHTree.mk.sizeOf_spec]
  omega

/-- Model of `BarnesHutNode.get_magnetic_field_exerted`. -/
noncomputable def get_magnetic_field_exerted :
    BHTree → Vec3 → ℝ → ℤ → Vec3
  | .mk _ _ _ size particles _ _ tc cc ccv children, point, theta, particle_id =>
    let r := point - cc
    let distance := r.norm
    if distance = 0 then 0
    else if size < theta * distance then
      (mu0 * tc / (4 * Real.pi * distance ^ 3)) • Vec3.cross ccv r
    else if 0 < children.length then
      (children.attach.map (fun c =>
        get_magnetic_field_exerted c.1 point theta particle_id)).sum
    else
      ((particles.filter (fun p => p.ID ≠ particle_id)).map
        (fun p => p.get_magnetic_field_exerted point)).sum
termination_by t _ _ _ => sizeOf t
decreasing_by
  have h := List.sizeOf_lt_of_mem c.2
  simp only [BHTree.mk.sizeOf_spec]
  omega

end BHTree

/-- Evaluating the model at concrete inputs: subtracting the zero vector. -/
@[simp] theorem Vec3.sub_zero' (v : Vec3) : v - (0 : Vec3) = v := by
  ext <;> simp

/-- C1: the claim states that for a particle with positive charge the
electric field at a point distinct from the particle position points away
from the particle (parallel to `point - position`). The code instead
returns `-r * k * q / distance ** 3`, which for the unit positive charge
at the origin and the query point `(1, 0, 0)` is the vector
`(-k, 0, 0)`: it has negative inner product with `point - position`,
i.e. it points toward the particle, so like charges attract. -/
theorem electric_field_sign_bug :
    (PointParticle.init 0 0 0 1 1 0).get_electric_field_exerted ⟨1, 0, 0⟩
        = ⟨-kCoulomb, 0, 0⟩
      ∧ (-kCoulomb) * 1 < 0 := by
  constructor
  · simp only [PointParticle.get_electric_field_exerted, PointParticle.init,
      Vec3.sub_zero', Vec3.norm_xaxis]
    norm_num
    ext <;> simp
  · have := kCoulomb_pos
    nlinarith

namespace BHTree

/-- One-step unfolding of the gravitational query, with the child sum
written as a plain `List.map`. -/
theorem grav_node_eq (xB yB zB : Bounds) (size : ℝ)
    (ps : List PointParticle) (tm : ℝ) (com : Vec3) (tc : ℝ) (cc ccv : Vec3)
    (children : List BHTree) (point : Vec3) (theta : ℝ) (particle_id : ℤ) :
    get_gravitational_field_exerted
        (.mk xB yB zB size ps tm com tc cc ccv children) point theta particle_id
      = if (point - com).norm = 0 then 0
        else if size < theta * (point - com).norm then
          (-(Gconst * tm / (point - com).norm ^ 3)) • (point - com)
        else if 0 < children.length then
          (children.map (fun c =>
            get_gravitational_field_exerted c point theta particle_id)).sum
        else
          ((ps.filter (fun p => p.ID ≠ particle_id)).map
            (fun p => p.get_gravitational_field_exerted point)).sum := by
  have hmap := List.attach_map_val children
    (fun c => get_gravitational_field_exerted c point theta particle_id)
  simp only [get_gravitational_field_exerted, hmap]

/-- One-step unfolding of the electric query. -/
theorem elec_node_eq (xB yB zB : Bounds) (size : ℝ)
    (ps : List PointParticle) (tm : ℝ) (com : Vec3) (tc : ℝ) (cc ccv : Vec3)
    (children : List BHTree) (point : Vec3) (theta : ℝ) (particle_id : ℤ) :
    get_electric_field_exerted
        (.mk xB yB zB size ps tm com tc cc ccv children) point theta particle_id
      = if (point - cc).norm = 0 then 0
        else if size < theta * (point - cc).norm then
          (-(kCoulomb * tc / (point - cc).norm ^ 3)) • (point - cc)
        else if 0 < children.length then
          (children.map (fun c =>
            get_electric_field_exerted c point theta particle_id)).sum
        else
          ((ps.filter (fun p => p.ID ≠ particle_id)).map
            (fun p => p.get_electric_field_exerted point)).sum := by
  have hmap := List.attach_map_val children
    (fun c => get_electric_field_exerted c point theta particle_id)
  simp only [get_electric_field_exerted, hmap]

/-- One-step unfolding of the magnetic query. -/
theorem mag_node_eq (xB yB zB : Bounds) (size : ℝ)
    (ps : List PointParticle) (tm : ℝ) (com : Vec3) (tc : ℝ) (cc ccv : Vec3)
    (children : List BHTree) (point : Vec3) (theta : ℝ) (particle_id : ℤ) :
    get_magnetic_field_exerted
        (.mk xB yB zB size ps tm com tc cc ccv children) point theta particle_id
      = if (point - cc).norm = 0 then 0
        else if size < theta * (point - cc).norm then
          (mu0 * tc / (4 * Real.pi * (point - cc).norm ^ 3)) •
            Vec3.cross ccv (point - cc)
        else if 0 < children.length then
          (children.map (fun c =>
            get_magnetic_field_exerted c point theta particle_id)).sum
        else
          ((ps.filter (fun p => p.ID ≠ particle_id)).map
            (fun p => p.get_magnetic_field_exerted point)).sum := by
  have hmap := List.attach_map_val children
    (fun c => get_magnetic_field_exerted c point theta particle_id)
  simp only [get_magnetic_field_exerted, hmap]

/-- All particles held by the leaves below a node, counted once per leaf
occurrence (a particle sitting on a splitting plane is kept by several
sibling octants and therefore occurs several times). -/
def leafOccurrences : BHTree → List PointParticle
  | .mk _ _ _ _ ps _ _ _ _ _ children =>
      if 0 < children.length then
        (children.attach.map (fun c => leafOccurrences c.1)).flatten
      else ps
termination_by t => sizeOf t
decreasing_by
  have h := List.sizeOf_lt_of_mem c.2
  simp only [BHTree.mk.sizeOf_spec]
  omega

/-- The aggregate centers of mass of a node and all its descendants. -/
def comList : BHTree → List Vec3
  | .mk _ _ _ _ _ _ com _ _ _ children =>
      com :: (children.attach.map (fun c => comList c.1)).flatten
termination_by t => sizeOf t
decreasing_by
  have h := List.sizeOf_lt_of_mem c.2
  simp only [BHTree.mk.sizeOf_spec]
  omega

/-- The aggregate centers of charge of a node and all its descendants. -/
def ccList : BHTree → List Vec3
  | .mk _ _ _ _ _ _ _ _ cc _ children =>
      cc :: (children.attach.map (fun c => ccList c.1)).flatten
termination_by t => sizeOf t
decreasing_by
  have h := List.sizeOf_lt_of_mem c.2
  simp only [BHTree.mk.sizeOf_spec]
  omega

/-- Every node of the tree has nonnegative `SIZE`. -/
def sizesNonneg : BHTree → Prop
  | .mk _ _ _ size _ _ _ _ _ _ children =>
      0 ≤ size ∧ ∀ c ∈ children.attach, sizesNonneg c.1
termination_by t => sizeOf t
decreasing_by
  have h := List.sizeOf_lt_of_mem c.2
  simp only [BHTree.mk.sizeOf_spec]
  omega

end BHTree

/-- The simulation state assigned by `Simulation.__init__` in `main.py`
(the `particles_data` logging DataFrame is outside the modelled core). -/
structure Simulation where
  particles_list : List PointParticle
  gravitational_field : Vec3
  electric_field : Vec3
  magnetic_field : Vec3
  current_time_step : ℕ
  time_step_size : ℝ
  theta : ℝ

namespace Simulation

/-- Model of `Simulation.__init__`: plain assignments, with no
validation of `theta` or of `time_step_size`. -/
def init (theta time_step_size : ℝ)
    (gravitational_field electric_field magnetic_field : Vec3)
    (particles_list : List PointParticle) : Simulation :=
  { particles_list := particles_list
    gravitational_field := gravitational_field
    electric_field := electric_field
    magnetic_field := magnetic_field
    current_time_step := 0
    time_step_size := time_step_size
    theta := theta }

/-- Model of `Simulation.calculate_particle_force`: the tree is queried
for the three fields at the given (or current) position with the
particle's own ID excluded, the uniform background fields are added via
a second `get_force_experienced` call, and the optional velocity is
passed through to the magnetic force term. -/
noncomputable def calculate_particle_force (self : Simulation)
    (particle : PointParticle) (barnes_hut_root : BHTree)
    (position : Option Vec3) (velocity : Option Vec3) : Vec3 :=
  let pos := position.getD particle.position
  particle.get_force_experienced
      (barnes_hut_root.get_gravitational_field_exerted pos self.theta particle.ID)
      (barnes_hut_root.get_electric_field_exerted pos self.theta particle.ID)
      (barnes_hut_root.get_magnetic_field_exerted pos self.theta particle.ID)
      velocity
    + particle.get_force_experienced self.gravitational_field
        self.electric_field self.magnetic_field velocity

/-- Model of the per-particle body of `Simulation.time_step`
(lines 199-266 of `main.py`): the four stage accelerations and
velocities exactly as the source computes them, returning the new
position and velocity stored into `new_data`. The source recomputes
`position` once more after the fourth force call; that value is dead
and does not appear in the result. -/
noncomputable def rk4Update (self : Simulation) (root : BHTree)
    (particle : PointParticle) : Vec3 × Vec3 :=
  let dt := self.time_step_size
  let m := particle.MASS
  let a0 := (1 / m) • self.calculate_particle_force particle root none none
  let v0 := particle.velocity
  let a1 := (1 / m) • self.calculate_particle_force particle root none none
  let v1 := particle.velocity + (dt / 2) • a0
  let pos2 := particle.position + (dt / 2) • v0 + ((1 / 2) * (dt / 2) ^ 2) • a0
  let a2 := (1 / m) • self.calculate_particle_force particle root (some pos2) (some v1)
  let v2 := particle.velocity + (dt / 2) • a1
  let pos3 := particle.position + (dt / 2) • v1 + ((1 / 2) * (dt / 2) ^ 2) • a1
  let a3 := (1 / m) • self.calculate_particle_force particle root (some pos3) (some v2)
  let v3 := particle.velocity + dt • a2
  (particle.position
      + (dt / 6) • (v0 + (2 : ℝ) • v1 + (2 : ℝ) • v2 + v3),
   particle.velocity
      + (dt / 6) • (a0 + (2 : ℝ) • a1 + (2 : ℝ) • a2 + a3))

end Simulation

/-- The four-stage Runge-Kutta step exactly as the specification
describes it, written for comparison with `Simulation.rk4Update`:
the derivative is re-evaluated at the current state (stage 1), at two
half-step states (stages 2 and 3) and at a full-step state (stage 4),
and the stages are combined with the weights `(1, 2, 2, 1) / 6`.
`A` is the acceleration as a function of position and velocity. -/
noncomputable def specRK4 (A : Vec3 → Vec3 → Vec3) (dt : ℝ)
    (p v : Vec3) : Vec3 × Vec3 :=
  let k1x := v
  let k1v := A p v
  let k2x := v + (dt / 2) • k1v
  let k2v := A (p + (dt / 2) • k1x) (v + (dt / 2) • k1v)
  let k3x := v + (dt / 2) • k2v
  let k3v := A (p + (dt / 2) • k2x) (v + (dt / 2) • k2v)
  let k4x := v + dt • k3v
  let k4v := A (p + dt • k3x) (v + dt • k3v)
  (p + (dt / 6) • (k1x + (2 : ℝ) • k2x + (2 : ℝ) • k3x + k4x),
   v + (dt / 6) • (k1v + (2 : ℝ) • k2v + (2 : ℝ) • k3v + k4v))

/-- The direct pairwise sum of per-particle exact field contributions
(the comparator named by the exactness claim): every particle except the
one with the excluded ID contributes its exact single-source field. -/
noncomputable def directGravSum (ps : List PointParticle) (pt : Vec3)
    (particle_id : ℤ) : Vec3 :=
  ((ps.filter (fun p => p.ID ≠ particle_id)).map
    (fun p => p.get_gravitational_field_exerted pt)).sum

/-- Direct pairwise sum for the electric field. -/
noncomputable def directElecSum (ps : List PointParticle) (pt : Vec3)
    (particle_id : ℤ) : Vec3 :=
  ((ps.filter (fun p => p.ID ≠ particle_id)).map
    (fun p => p.get_electric_field_exerted pt)).sum

/-- Direct pairwise sum for the magnetic field. -/
noncomputable def directMagSum (ps : List PointParticle) (pt : Vec3)
    (particle_id : ℤ) : Vec3 :=
  ((ps.filter (fun p => p.ID ≠ particle_id)).map
    (fun p => p.get_magnetic_field_exerted pt)).sum

/-- Subtracting a vector from itself gives the zero vector. -/
@[simp] theorem Vec3.sub_self' (v : Vec3) : v - v = 0 := by
  ext <;> simp

/-- C4: the claim states that a particle with zero or negative mass, or
a simulation with `theta < 0`, is rejected eagerly with an error at
construction time. The constructors contain no validation at all: both
calls below return normally and store the invalid values, so the error
only surfaces mid-run when `force / mass` is evaluated. -/
theorem no_construction_validation :
    (PointParticle.init 0 0 0 0 0 0).MASS = 0
    ∧ (PointParticle.init 0 0 0 (-1) 0 1).MASS = -1
    ∧ (Simulation.init (-1) 0 0 0 0 []).theta = -1 := ⟨rfl, rfl, rfl⟩

/-- C5: the claim states that building a `BarnesHutNode` from an empty
particle collection with bounds omitted succeeds. It does not: the bound
inference calls Python `min` on the empty sequence, which raises
`ValueError`, modelled here by the constructor returning `none` for
every amount of recursion fuel. -/
theorem empty_build_raises (fuel : ℕ) :
    mkNode fuel [] none none none = none := by
  cases fuel <;>
    simp [mkNode, assembleNode, resolveAxisBounds, inferAxisBounds]

/-- C9: for each of the six field evaluations (three per-particle, three
per-node), a query at zero distance from the source position or the
aggregate center returns the zero vector via the early guard, without
reaching the division. -/
theorem zero_distance_guard (p : PointParticle) (t : BHTree) (pt : Vec3)
    (theta : ℝ) (particle_id : ℤ) :
    (pt = p.position →
      p.get_gravitational_field_exerted pt = 0
      ∧ p.get_electric_field_exerted pt = 0
      ∧ p.get_magnetic_field_exerted pt = 0)
    ∧ (pt = t.CENTER_OF_MASS →
        t.get_gravitational_field_exerted pt theta particle_id = 0)
    ∧ (pt = t.CENTER_OF_CHARGE →
        t.get_electric_field_exerted pt theta particle_id = 0
        ∧ t.get_magnetic_field_exerted pt theta particle_id = 0) := by
  refine ⟨?_, ?_, ?_⟩
  · intro h
    subst h
    refine ⟨?_, ?_, ?_⟩ <;>
      simp [PointParticle.get_gravitational_field_exerted,
        PointParticle.get_electric_field_exerted,
        PointParticle.get_magnetic_field_exerted]
  · obtain ⟨xB, yB, zB, size, ps, tm, com, tc, cc, ccv, children⟩ := t
    intro h
    simp only [BHTree.CENTER_OF_MASS] at h
    subst h
    rw [BHTree.grav_node_eq]
    simp
  · obtain ⟨xB, yB, zB, size, ps, tm, com, tc, cc, ccv, children⟩ := t
    intro h
    simp only [BHTree.CENTER_OF_CHARGE] at h
    subst h
    rw [BHTree.elec_node_eq, BHTree.mag_node_eq]
    simp

/-- Witness for `zero_distance_guard`: a unit-mass particle at the
origin and a directly assembled degenerate node whose aggregate centers
are the origin; all six queries at the origin evaluate to zero. -/
theorem zero_distance_guard_witness :
    ((PointParticle.init 0 0 0 1 1 0).get_gravitational_field_exerted 0 = 0
      ∧ (PointParticle.init 0 0 0 1 1 0).get_electric_field_exerted 0 = 0
      ∧ (PointParticle.init 0 0 0 1 1 0).get_magnetic_field_exerted 0 = 0)
    ∧ (BHTree.mk ⟨0, 0⟩ ⟨0, 0⟩ ⟨0, 0⟩ 0 [] 0 0 0 0 0 []).get_gravitational_field_exerted 0 (1 / 2) (-1) = 0
    ∧ (BHTree.mk ⟨0, 0⟩ ⟨0, 0⟩ ⟨0, 0⟩ 0 [] 0 0 0 0 0 []).get_electric_field_exerted 0 (1 / 2) (-1) = 0
    ∧ (BHTree.mk ⟨0, 0⟩ ⟨0, 0⟩ ⟨0, 0⟩ 0 [] 0 0 0 0 0 []).get_magnetic_field_exerted 0 (1 / 2) (-1) = 0 := by
  obtain ⟨h1, h2, h3⟩ := zero_distance_guard (PointParticle.init 0 0 0 1 1 0)
    (BHTree.mk ⟨0, 0⟩ ⟨0, 0⟩ ⟨0, 0⟩ 0 [] 0 0 0 0 0 []) 0 (1 / 2) (-1)
  exact ⟨h1 rfl, h2 rfl, h3 rfl⟩

namespace BHTree

/-- The gravitational traversal with no particle excluded: identical to
`get_gravitational_field_exerted` except that the leaf loop sums the
contribution of every contained particle. -/
noncomputable def gravFieldNoExclusion : BHTree → Vec3 → ℝ → Vec3
  | .mk _ _ _ size particles tm com _ _ _ children, point, theta =>
    let r := point - com
    let distance := r.norm
    if distance = 0 then 0
    else if size < theta * distance then
      (-(Gconst * tm / distance ^ 3)) • r
    else if 0 < children.length then
      (children.attach.map (fun c => gravFieldNoExclusion c.1 point theta)).sum
    else
      (particles.map (fun p => p.get_gravitational_field_exerted point)).sum
termination_by t _ _ => sizeOf t
decreasing_by
  have h := List.sizeOf_lt_of_mem c.2
  simp only [BHTree.mk.sizeOf_spec]
  omega

/-- The electric traversal with no particle excluded. -/
noncomputable def elecFieldNoExclusion : BHTree → Vec3 → ℝ → Vec3
  | .mk _ _ _ size particles _ _ tc cc _ children, point, theta =>
    let r := point - cc
    let distance := r.norm
    if distance = 0 then 0
    else if size < theta * distance then
      (-(kCoulomb * tc / distance ^ 3)) • r
    else if 0 < children.length then
      (children.attach.map (fun c => elecFieldNoExclusion c.1 point theta)).sum
    else
      (particles.map (fun p => p.get_electric_field_exerted point)).sum
termination_by t _ _ => sizeOf t
decreasing_by
  have h := List.sizeOf_lt_of_mem c.2
  simp only [BHTree.mk.sizeOf_spec]
  omega

/-- The magnetic traversal with no particle excluded. -/
noncomputable def magFieldNoExclusion : BHTree → Vec3 → ℝ → Vec3
  | .mk _ _ _ size particles _ _ tc cc ccv children, point, theta =>
    let r := point - cc
    let distance := r.norm
    if distance = 0 then 0
    else if size < theta * distance then
      (mu0 * tc / (4 * Real.pi * distance ^ 3)) • Vec3.cross ccv r
    else if 0 < children.length then
      (children.attach.map (fun c => magFieldNoExclusion c.1 point theta)).sum
    else
      (particles.map (fun p => p.get_magnetic_field_exerted point)).sum
termination_by t _ _ => sizeOf t
decreasing_by
  have h := List.sizeOf_lt_of_mem c.2
  simp only [BHTree.mk.sizeOf_spec]
  omega

/-- One-step unfolding of `gravFieldNoExclusion`. -/
theorem gravNoExcl_node_eq (xB yB zB : Bounds) (size : ℝ)
    (ps : List PointParticle) (tm : ℝ) (com : Vec3) (tc : ℝ) (cc ccv : Vec3)
    (children : List BHTree) (point : Vec3) (theta : ℝ) :
    gravFieldNoExclusion (.mk xB yB zB size ps tm com tc cc ccv children) point theta
      = if (point - com).norm = 0 then 0
        else if size < theta * (point - com).norm then
          (-(Gconst * tm / (point - com).norm ^ 3)) • (point - com)
        else if 0 < children.length then
          (children.map (fun c => gravFieldNoExclusion c point theta)).sum
        else
          (ps.map (fun p => p.get_gravitational_field_exerted point)).sum := by
  have hmap := List.attach_map_val children
    (fun c => gravFieldNoExclusion c point theta)
  simp only [gravFieldNoExclusion, hmap]

/-- One-step unfolding of `elecFieldNoExclusion`. -/
theorem elecNoExcl_node_eq (xB yB zB : Bounds) (size : ℝ)
    (ps : List PointParticle) (tm : ℝ) (com : Vec3) (tc : ℝ) (cc ccv : Vec3)
    (children : List BHTree) (point : Vec3) (theta : ℝ) :
    elecFieldNoExclusion (.mk xB yB zB size ps tm com tc cc ccv children) point theta
      = if (point - cc).norm = 0 then 0
        else if size < theta * (point - cc).norm then
          (-(kCoulomb * tc / (point - cc).norm ^ 3)) • (point - cc)
        else if 0 < children.length then
          (children.map (fun c => elecFieldNoExclusion c point theta)).sum
        else
          (ps.map (fun p => p.get_electric_field_exerted point)).sum := by
  have hmap := List.attach_map_val children
    (fun c => elecFieldNoExclusion c point theta)
  simp only [elecFieldNoExclusion, hmap]

/-- One-step unfolding of `magFieldNoExclusion`. -/
theorem magNoExcl_node_eq (xB yB zB : Bounds) (size : ℝ)
    (ps : List PointParticle) (tm : ℝ) (com : Vec3) (tc : ℝ) (cc ccv : Vec3)
    (children : List BHTree) (point : Vec3) (theta : ℝ) :
    magFieldNoExclusion (.mk xB yB zB size ps tm com tc cc ccv children) point theta
      = if (point - cc).norm = 0 then 0
        else if size < theta * (point - cc).norm then
          (mu0 * tc / (4 * Real.pi * (point - cc).norm ^ 3)) •
            Vec3.cross ccv (point - cc)
        else if 0 < children.length then
          (children.map (fun c => magFieldNoExclusion c point theta)).sum
        else
          (ps.map (fun p => p.get_magnetic_field_exerted point)).sum := by
  have hmap := List.attach_map_val children
    (fun c => magFieldNoExclusion c point theta)
  simp only [magFieldNoExclusion, hmap]

/-- One-step unfolding of `leafOccurrences` with a plain `List.map`. -/
theorem leafOccurrences_node_eq (xB yB zB : Bounds) (size : ℝ)
    (ps : List PointParticle) (tm : ℝ) (com : Vec3) (tc : ℝ) (cc ccv : Vec3)
    (children : List BHTree) :
    leafOccurrences (.mk xB yB zB size ps tm com tc cc ccv children)
      = if 0 < children.length then
          (children.map leafOccurrences).flatten
        else ps := by
  have hmap := List.attach_map_val children leafOccurrences
  simp only [leafOccurrences, hmap]

/-- If every particle occurring in a leaf of the tree has a nonnegative
ID, the three queries with the default sentinel `particle_id = -1`
exclude nothing: they equal the corresponding full traversals. -/
theorem queries_with_default_pid : ∀ (t : BHTree) (pt : Vec3) (theta : ℝ),
    (∀ p ∈ t.leafOccurrences, 0 ≤ p.ID) →
    t.get_gravitational_field_exerted pt theta (-1)
        = t.gravFieldNoExclusion pt theta
    ∧ t.get_electric_field_exerted pt theta (-1)
        = t.elecFieldNoExclusion pt theta
    ∧ t.get_magnetic_field_exerted pt theta (-1)
        = t.magFieldNoExclusion pt theta
  | .mk xB yB zB size ps tm com tc cc ccv children, pt, theta, h => by
    rw [leafOccurrences_node_eq] at h
    by_cases hch : 0 < children.length
    · rw [if_pos hch] at h
      have hchild : ∀ c ∈ children, ∀ p ∈ c.leafOccurrences, 0 ≤ p.ID := by
        intro c hc p hp
        exact h p (List.mem_flatten.mpr ⟨c.leafOccurrences,
          List.mem_map.mpr ⟨c, hc, rfl⟩, hp⟩)
      have ih : ∀ c ∈ children,
          c.get_gravitational_field_exerted pt theta (-1)
              = c.gravFieldNoExclusion pt theta
          ∧ c.get_electric_field_exerted pt theta (-1)
              = c.elecFieldNoExclusion pt theta
          ∧ c.get_magnetic_field_exerted pt theta (-1)
              = c.magFieldNoExclusion pt theta := by
        intro c hc
        exact queries_with_default_pid c pt theta (hchild c hc)
      rw [grav_node_eq, elec_node_eq, mag_node_eq, gravNoExcl_node_eq,
        elecNoExcl_node_eq, magNoExcl_node_eq]
      refine ⟨?_, ?_, ?_⟩ <;>
        · simp only [if_pos hch]
          split
          · rfl
          · split
            · rfl
            · exact congrArg List.sum (List.map_congr_left
                (fun c hc => by
                  first
                  | exact (ih c hc).1
                  | exact (ih c hc).2.1
                  | exact (ih c hc).2.2))
    · rw [if_neg hch] at h
      have hfilter : ps.filter (fun p => p.ID ≠ (-1 : ℤ)) = ps := by
        rw [List.filter_eq_self]
        intro p hp
        have := h p hp
        simp only [decide_eq_true_eq]
        omega
      rw [grav_node_eq, elec_node_eq, mag_node_eq, gravNoExcl_node_eq,
        elecNoExcl_node_eq, magNoExcl_node_eq]
      refine ⟨?_, ?_, ?_⟩ <;>
        · simp only [if_neg hch, hfilter]
termination_by t _ _ _ => sizeOf t
decreasing_by
  have hlt := List.sizeOf_lt_of_mem hc
  try simp only [BHTree.mk.sizeOf_spec]
  omega

end BHTree

/-- The ID assigned to the `i`-th particle constructed with the counter
starting at `start` is `start + i`. -/
theorem PointParticle.initList_id (start : ℤ)
    (specs : List (Vec3 × Vec3 × Vec3 × ℝ × ℝ)) (i : ℕ)
    (h : i < (PointParticle.initList start specs).length) :
    ((PointParticle.initList start specs).get ⟨i, h⟩).ID = start + i := by
  induction specs generalizing start i with
  | nil => simp [PointParticle.initList] at h
  | cons hd tl ih =>
    obtain ⟨pos, vel, acc, m, q⟩ := hd
    cases i with
    | zero => simp [PointParticle.initList, PointParticle.init]
    | succ n =>
      have h' : n < (PointParticle.initList (start + 1) tl).length := by
        simpa [PointParticle.initList] using h
      have step : ((PointParticle.initList start ((pos, vel, acc, m, q) :: tl)).get
          ⟨n + 1, h⟩).ID
            = ((PointParticle.initList (start + 1) tl).get ⟨n, h'⟩).ID := by
        simp [PointParticle.initList]
      rw [step, ih]
      push_cast
      ring

/-- C10: particle IDs assigned by the construction counter starting at 0
are nonnegative and strictly increasing, and on any tree whose leaf
particles all carry nonnegative IDs (as construction guarantees) each of
the three field queries called with the default `particle_id = -1`
excludes nothing: it equals the same traversal summing every contained
particle's contribution. -/
theorem default_pid_excludes_nothing :
    (∀ (specs : List (Vec3 × Vec3 × Vec3 × ℝ × ℝ))
        (i j : ℕ) (hi : i < (PointParticle.initList 0 specs).length)
        (hj : j < (PointParticle.initList 0 specs).length),
        0 ≤ ((PointParticle.initList 0 specs).get ⟨i, hi⟩).ID
        ∧ (i < j →
            ((PointParticle.initList 0 specs).get ⟨i, hi⟩).ID
              < ((PointParticle.initList 0 specs).get ⟨j, hj⟩).ID))
    ∧ ∀ (t : BHTree) (pt : Vec3) (theta : ℝ),
        (∀ p ∈ t.leafOccurrences, 0 ≤ p.ID) →
        t.get_gravitational_field_exerted pt theta (-1)
            = t.gravFieldNoExclusion pt theta
        ∧ t.get_electric_field_exerted pt theta (-1)
            = t.elecFieldNoExclusion pt theta
        ∧ t.get_magnetic_field_exerted pt theta (-1)
            = t.magFieldNoExclusion pt theta := by
  constructor
  · intro specs i j hi hj
    rw [PointParticle.initList_id 0 specs i hi,
      PointParticle.initList_id 0 specs j hj]
    constructor
    · omega
    · intro hij
      omega
  · intro t pt theta h
    exact BHTree.queries_with_default_pid t pt theta h

/-- Witness for `default_pid_excludes_nothing`: two constructed
particles receive IDs 0 < 1, and on a leaf node holding them the three
default-ID queries at the origin agree with the unexcluded traversals. -/
theorem default_pid_excludes_nothing_witness :
    (0 ≤ ((PointParticle.initList 0 [(0, 0, 0, 1, 0), (⟨1, 0, 0⟩, 0, 0, 1, 0)]).get
        ⟨0, by simp [PointParticle.initList]⟩).ID
      ∧ ((PointParticle.initList 0 [(0, 0, 0, 1, 0), (⟨1, 0, 0⟩, 0, 0, 1, 0)]).get
        ⟨0, by simp [PointParticle.initList]⟩).ID
        < ((PointParticle.initList 0 [(0, 0, 0, 1, 0), (⟨1, 0, 0⟩, 0, 0, 1, 0)]).get
        ⟨1, by simp [PointParticle.initList]⟩).ID)
    ∧ (BHTree.mk ⟨0, 1⟩ ⟨0, 1⟩ ⟨0, 1⟩ 1
        [PointParticle.init 0 0 0 1 0 0, PointParticle.init ⟨1, 0, 0⟩ 0 0 1 0 1]
        2 ⟨1 / 2, 0, 0⟩ 0 0 0 []).get_gravitational_field_exerted 0 0 (-1)
      = (BHTree.mk ⟨0, 1⟩ ⟨0, 1⟩ ⟨0, 1⟩ 1
        [PointParticle.init 0 0 0 1 0 0, PointParticle.init ⟨1, 0, 0⟩ 0 0 1 0 1]
        2 ⟨1 / 2, 0, 0⟩ 0 0 0 []).gravFieldNoExclusion 0 0 := by
  constructor
  · exact (default_pid_excludes_nothing.1
      [(0, 0, 0, 1, 0), (⟨1, 0, 0⟩, 0, 0, 1, 0)] 0 1
      (by simp [PointParticle.initList]) (by simp [PointParticle.initList])).imp
      id (fun h => h (by omega))
  · refine (default_pid_excludes_nothing.2 _ 0 0 ?_).1
    rw [BHTree.leafOccurrences_node_eq]
    intro p hp
    simp only [List.length_nil, lt_irrefl, if_false, List.mem_cons,
      List.not_mem_nil, or_false] at hp
    rcases hp with h1 | h1 <;> subst h1 <;> simp [PointParticle.init]

/-- First test particle: mass `m`, zero charge, ID 0, at the origin. -/
noncomputable def pairA (m : ℝ) : PointParticle :=
  PointParticle.init 0 0 0 m 0 0

/-- Second test particle: mass `m`, zero charge, ID 1, at `(1, 0, 0)`. -/
noncomputable def pairB (m : ℝ) : PointParticle :=
  PointParticle.init ⟨1, 0, 0⟩ 0 0 m 0 1

/-- The tree the constructor builds from `[pairA mA, pairB mB]` with
inferred bounds: the inferred box `[0,1] x [0,0] x [0,0]` is cubed to
`[0,1] x [-1/2,1/2] x [-1/2,1/2]`, and both particles lie on the `y` and
`z` splitting planes, so each is kept by four of the eight octants. -/
noncomputable def pairTree (mA mB : ℝ) : BHTree :=
  .mk ⟨0, 1⟩ ⟨-(1 / 2), 1 / 2⟩ ⟨-(1 / 2), 1 / 2⟩ 1 [pairA mA, pairB mB]
    (mA + mB) ⟨mB / (mA + mB), 0, 0⟩ 0 0 0
    [.mk ⟨0, 1 / 2⟩ ⟨-(1 / 2), 0⟩ ⟨-(1 / 2), 0⟩ (1 / 2) [pairA mA] mA 0 0 0 0 [],
     .mk ⟨0, 1 / 2⟩ ⟨-(1 / 2), 0⟩ ⟨0, 1 / 2⟩ (1 / 2) [pairA mA] mA 0 0 0 0 [],
     .mk ⟨0, 1 / 2⟩ ⟨0, 1 / 2⟩ ⟨-(1 / 2), 0⟩ (1 / 2) [pairA mA] mA 0 0 0 0 [],
     .mk ⟨0, 1 / 2⟩ ⟨0, 1 / 2⟩ ⟨0, 1 / 2⟩ (1 / 2) [pairA mA] mA 0 0 0 0 [],
     .mk ⟨1 / 2, 1⟩ ⟨-(1 / 2), 0⟩ ⟨-(1 / 2), 0⟩ (1 / 2) [pairB mB] mB ⟨1, 0, 0⟩ 0 0 0 [],
     .mk ⟨1 / 2, 1⟩ ⟨-(1 / 2), 0⟩ ⟨0, 1 / 2⟩ (1 / 2) [pairB mB] mB ⟨1, 0, 0⟩ 0 0 0 [],
     .mk ⟨1 / 2, 1⟩ ⟨0, 1 / 2⟩ ⟨-(1 / 2), 0⟩ (1 / 2) [pairB mB] mB ⟨1, 0, 0⟩ 0 0 0 [],
     .mk ⟨1 / 2, 1⟩ ⟨0, 1 / 2⟩ ⟨0, 1 / 2⟩ (1 / 2) [pairB mB] mB ⟨1, 0, 0⟩ 0 0 0 []]

/-- Scalar multiple of the zero vector. -/
@[simp] theorem Vec3.smul_zero' (c : ℝ) : c • (0 : Vec3) = 0 := by
  ext <;> simp

/-- Zero scalar multiple. -/
@[simp] theorem Vec3.zero_smul' (v : Vec3) : (0 : ℝ) • v = 0 := by
  ext <;> simp

/-- Building the Barnes-Hut tree from the two test particles (nonzero
masses) produces exactly `pairTree`: in particular both particles sit on
the `y = 0` and `z = 0` splitting planes and are kept by four octants
each, because the membership test is inclusive on both ends. -/
theorem pair_build (mA mB : ℝ) (hA : mA ≠ 0) (hB : mB ≠ 0)
    (hAB : mA + mB ≠ 0) :
    mkNode 1 [pairA mA, pairB mB] none none none = some (pairTree mA mB) := by
  norm_num [mkNode, assembleNode, resolveAxisBounds, inferAxisBounds,
    listMin, listMax, cube_bounds, filterWithin, particle_within_bounds,
    totalMass, massMoment, totalCharge, chargeMoment, currentMoment,
    octantBounds, seqOpt, pairA, pairB, pairTree, PointParticle.init,
    min_def, max_def, hA, hB, hAB]
  constructor
  · ext <;> simp <;> field_simp
  · ext <;> simp <;> field_simp

/-- Componentwise subtraction of vector literals. -/
@[simp] theorem Vec3.mk_sub_mk (a1 a2 a3 b1 b2 b3 : ℝ) :
    (⟨a1, a2, a3⟩ - ⟨b1, b2, b3⟩ : Vec3) = ⟨a1 - b1, a2 - b2, a3 - b3⟩ := rfl

/-- Componentwise addition of vector literals. -/
@[simp] theorem Vec3.mk_add_mk (a1 a2 a3 b1 b2 b3 : ℝ) :
    (⟨a1, a2, a3⟩ + ⟨b1, b2, b3⟩ : Vec3) = ⟨a1 + b1, a2 + b2, a3 + b3⟩ := rfl

/-- Scalar multiplication of a vector literal. -/
@[simp] theorem Vec3.smul_mk (c x y z : ℝ) :
    c • (⟨x, y, z⟩ : Vec3) = ⟨c * x, c * y, c * z⟩ := rfl

/-- The tree built from the two unit-mass test particles answers the
theta = 0 gravitational query at `(2,0,0)` with `(-5 G, 0, 0)`: each
particle is counted four times (once per octant that kept it). -/
theorem pairTree_query_val :
    (pairTree 1 1).get_gravitational_field_exerted ⟨2, 0, 0⟩ 0 (-1)
      = ⟨-(5 * Gconst), 0, 0⟩ := by
  norm_num [pairTree, pairA, pairB, PointParticle.init,
    BHTree.grav_node_eq, PointParticle.get_gravitational_field_exerted,
    Vec3.norm_xaxis, abs_of_pos, abs_of_nonneg]
  ring

/-- The direct pairwise sum for the same configuration is
`(-5 G / 4, 0, 0)`. -/
theorem pair_direct_sum_val :
    directGravSum [pairA 1, pairB 1] ⟨2, 0, 0⟩ (-1)
      = ⟨-(5 * Gconst / 4), 0, 0⟩ := by
  norm_num [directGravSum, pairA, pairB, PointParticle.init,
    PointParticle.get_gravitational_field_exerted,
    Vec3.norm_xaxis, abs_of_pos, abs_of_nonneg]
  ring

/-- Vector subtraction vanishes exactly on equal vectors. -/
theorem Vec3.sub_eq_zero_iff (a b : Vec3) : a - b = 0 ↔ a = b := by
  constructor
  · intro h
    have hx := congrArg Vec3.x h
    have hy := congrArg Vec3.y h
    have hz := congrArg Vec3.z h
    simp only [Vec3.sub_x, Vec3.sub_y, Vec3.sub_z, Vec3.zero_x, Vec3.zero_y,
      Vec3.zero_z] at hx hy hz
    ext <;> linarith
  · intro h; subst h; simp

namespace BHTree

/-- Node form of `sizesNonneg`. -/
theorem sizesNonneg_node (xB yB zB : Bounds) (size : ℝ)
    (ps : List PointParticle) (tm : ℝ) (com : Vec3) (tc : ℝ) (cc ccv : Vec3)
    (children : List BHTree) :
    sizesNonneg (.mk xB yB zB size ps tm com tc cc ccv children)
      ↔ 0 ≤ size ∧ ∀ c ∈ children, sizesNonneg c := by
  rw [sizesNonneg]
  constructor
  · rintro ⟨h0, h⟩
    exact ⟨h0, fun c hc => h ⟨c, hc⟩ (List.mem_attach _ _)⟩
  · rintro ⟨h0, h⟩
    exact ⟨h0, fun c _ => h c.1 c.2⟩

/-- Node form of `comList`. -/
theorem comList_node_eq (xB yB zB : Bounds) (size : ℝ)
    (ps : List PointParticle) (tm : ℝ) (com : Vec3) (tc : ℝ) (cc ccv : Vec3)
    (children : List BHTree) :
    comList (.mk xB yB zB size ps tm com tc cc ccv children)
      = com :: (children.map comList).flatten := by
  have hmap := List.attach_map_val children comList
  simp only [comList, hmap]

/-- Node form of `ccList`. -/
theorem ccList_node_eq (xB yB zB : Bounds) (size : ℝ)
    (ps : List PointParticle) (tm : ℝ) (com : Vec3) (tc : ℝ) (cc ccv : Vec3)
    (children : List BHTree) :
    ccList (.mk xB yB zB size ps tm com tc cc ccv children)
      = cc :: (children.map ccList).flatten := by
  have hmap := List.attach_map_val children ccList
  simp only [ccList, hmap]

end BHTree

/-- Summing a filtered, mapped flattening list-by-list. -/
theorem sum_filter_map_flatten (L : List (List PointParticle))
    (q : PointParticle → Bool) (f : PointParticle → Vec3) :
    ((L.flatten.filter q).map f).sum
      = (L.map (fun l => ((l.filter q).map f).sum)).sum := by
  induction L with
  | nil => simp
  | cons hd tl ih =>
      simp only [List.flatten_cons, List.filter_append, List.map_append,
        List.sum_append, List.map_cons, List.sum_cons, ih]

namespace BHTree

/-- With `theta = 0` the MAC branch `size < 0 * distance` is never taken
on a tree with nonnegative sizes, so provided the query point coincides
with no aggregate center of mass, the gravitational query returns the
exact per-particle sum over all leaf occurrences. -/
theorem grav_theta0_leafSum : ∀ (t : BHTree) (pt : Vec3) (pid : ℤ),
    t.sizesNonneg → pt ∉ t.comList →
    t.get_gravitational_field_exerted pt 0 pid
      = ((t.leafOccurrences.filter (fun p => p.ID ≠ pid)).map
          (fun p => p.get_gravitational_field_exerted pt)).sum
  | .mk xB yB zB size ps tm com tc cc ccv children, pt, pid, hs, hc => by
    rw [sizesNonneg_node] at hs
    rw [comList_node_eq] at hc
    rw [grav_node_eq, leafOccurrences_node_eq]
    have hne : pt ≠ com := fun h => hc (h ▸ List.mem_cons_self _ _)
    have hdist : ¬((pt - com).norm = 0) := by
      rw [Vec3.norm_eq_zero_iff, Vec3.sub_eq_zero_iff]; exact hne
    rw [if_neg hdist]
    have hmac : ¬(size < 0 * (pt - com).norm) := by
      rw [zero_mul]; exact not_lt.mpr hs.1
    rw [if_neg hmac]
    by_cases hch : 0 < children.length
    · rw [if_pos hch, if_pos hch, sum_filter_map_flatten, List.map_map]
      refine congrArg List.sum (List.map_congr_left ?_)
      intro c hcmem
      have hcs : c.sizesNonneg := hs.2 c hcmem
      have hcc : pt ∉ c.comList := fun hpc =>
        hc (List.mem_cons.mpr (Or.inr (List.mem_flatten.mpr
          ⟨c.comList, List.mem_map.mpr ⟨c, hcmem, rfl⟩, hpc⟩)))
      exact grav_theta0_leafSum c pt pid hcs hcc
    · rw [if_neg hch, if_neg hch]
termination_by t _ _ _ _ => sizeOf t
decreasing_by
  have hlt := List.sizeOf_lt_of_mem hcmem
  try simp only [BHTree.mk.sizeOf_spec]
  omega

/-- Electric counterpart of `grav_theta0_leafSum`, guarded by the
centers of charge. -/
theorem elec_theta0_leafSum : ∀ (t : BHTree) (pt : Vec3) (pid : ℤ),
    t.sizesNonneg → pt ∉ t.ccList →
    t.get_electric_field_exerted pt 0 pid
      = ((t.leafOccurrences.filter (fun p => p.ID ≠ pid)).map
          (fun p => p.get_electric_field_exerted pt)).sum
  | .mk xB yB zB size ps tm com tc cc ccv children, pt, pid, hs, hc => by
    rw [sizesNonneg_node] at hs
    rw [ccList_node_eq] at hc
    rw [elec_node_eq, leafOccurrences_node_eq]
    have hne : pt ≠ cc := fun h => hc (h ▸ List.mem_cons_self _ _)
    have hdist : ¬((pt - cc).norm = 0) := by
      rw [Vec3.norm_eq_zero_iff, Vec3.sub_eq_zero_iff]; exact hne
    rw [if_neg hdist]
    have hmac : ¬(size < 0 * (pt - cc).norm) := by
      rw [zero_mul]; exact not_lt.mpr hs.1
    rw [if_neg hmac]
    by_cases hch : 0 < children.length
    · rw [if_pos hch, if_pos hch, sum_filter_map_flatten, List.map_map]
      refine congrArg List.sum (List.map_congr_left ?_)
      intro c hcmem
      have hcs : c.sizesNonneg := hs.2 c hcmem
      have hcc : pt ∉ c.ccList := fun hpc =>
        hc (List.mem_cons.mpr (Or.inr (List.mem_flatten.mpr
          ⟨c.ccList, List.mem_map.mpr ⟨c, hcmem, rfl⟩, hpc⟩)))
      exact elec_theta0_leafSum c pt pid hcs hcc
    · rw [if_neg hch, if_neg hch]
termination_by t _ _ _ _ => sizeOf t
decreasing_by
  have hlt := List.sizeOf_lt_of_mem hcmem
  try simp only [BHTree.mk.sizeOf_spec]
  omega

/-- Magnetic counterpart of `grav_theta0_leafSum`. -/
theorem mag_theta0_leafSum : ∀ (t : BHTree) (pt : Vec3) (pid : ℤ),
    t.sizesNonneg → pt ∉ t.ccList →
    t.get_magnetic_field_exerted pt 0 pid
      = ((t.leafOccurrences.filter (fun p => p.ID ≠ pid)).map
          (fun p => p.get_magnetic_field_exerted pt)).sum
  | .mk xB yB zB size ps tm com tc cc ccv children, pt, pid, hs, hc => by
    rw [sizesNonneg_node] at hs
    rw [ccList_node_eq] at hc
    rw [mag_node_eq, leafOccurrences_node_eq]
    have hne : pt ≠ cc := fun h => hc (h ▸ List.mem_cons_self _ _)
    have hdist : ¬((pt - cc).norm = 0) := by
      rw [Vec3.norm_eq_zero_iff, Vec3.sub_eq_zero_iff]; exact hne
    rw [if_neg hdist]
    have hmac : ¬(size < 0 * (pt - cc).norm) := by
      rw [zero_mul]; exact not_lt.mpr hs.1
    rw [if_neg hmac]
    by_cases hch : 0 < children.length
    · rw [if_pos hch, if_pos hch, sum_filter_map_flatten, List.map_map]
      refine congrArg List.sum (List.map_congr_left ?_)
      intro c hcmem
      have hcs : c.sizesNonneg := hs.2 c hcmem
      have hcc : pt ∉ c.ccList := fun hpc =>
        hc (List.mem_cons.mpr (Or.inr (List.mem_flatten.mpr
          ⟨c.ccList, List.mem_map.mpr ⟨c, hcmem, rfl⟩, hpc⟩)))
      exact mag_theta0_leafSum c pt pid hcs hcc
    · rw [if_neg hch, if_neg hch]
termination_by t _ _ _ _ => sizeOf t
decreasing_by
  have hlt := List.sizeOf_lt_of_mem hcmem
  try simp only [BHTree.mk.sizeOf_spec]
  omega

end BHTree

/-- C2 counterexample: for the two unit-mass particles `pairA 1` (at the
origin) and `pairB 1` (at `(1,0,0)`), both of which lie exactly on the
`y = 0` and `z = 0` octant splitting planes, the root query at
`(2, 0, 0)` with `theta = 0` and the default excluded id returns
`(-5 G, 0, 0)` — four copies of each particle's contribution — while
the direct pairwise sum is `(-5 G / 4, 0, 0)`. -/
theorem theta0_not_pairwise_sum :
    (mkNode 1 [pairA 1, pairB 1] none none none).map
        (fun t => t.get_gravitational_field_exerted ⟨2, 0, 0⟩ 0 (-1))
      ≠ some (directGravSum [pairA 1, pairB 1] ⟨2, 0, 0⟩ (-1)) := by
  rw [pair_build 1 1 one_ne_zero one_ne_zero (by norm_num)]
  simp only [Option.map_some']
  rw [pairTree_query_val, pair_direct_sum_val]
  intro h
  rw [Option.some.injEq] at h
  have hx := congrArg Vec3.x h
  simp only [] at hx
  have := Gconst_pos
  linarith

/-- C2 amended: with `theta = 0` the approximate branch is never taken
(on trees with nonnegative sizes), and, provided the query point
coincides with no aggregate center, each of the three root queries
returns the exact per-particle sum over all leaf occurrences of
particles (excluding the given id). A particle lying exactly on an
octant splitting plane is kept by several sibling octants, occurs in
several leaves, and is therefore counted once per occurrence, so the
result can exceed the direct pairwise sum. -/
theorem theta0_leaf_occurrence_sum (t : BHTree) (pt : Vec3) (pid : ℤ)
    (hs : t.sizesNonneg) (hm : pt ∉ t.comList) (hc : pt ∉ t.ccList) :
    t.get_gravitational_field_exerted pt 0 pid
        = ((t.leafOccurrences.filter (fun p => p.ID ≠ pid)).map
            (fun p => p.get_gravitational_field_exerted pt)).sum
    ∧ t.get_electric_field_exerted pt 0 pid
        = ((t.leafOccurrences.filter (fun p => p.ID ≠ pid)).map
            (fun p => p.get_electric_field_exerted pt)).sum
    ∧ t.get_magnetic_field_exerted pt 0 pid
        = ((t.leafOccurrences.filter (fun p => p.ID ≠ pid)).map
            (fun p => p.get_magnetic_field_exerted pt)).sum :=
  ⟨BHTree.grav_theta0_leafSum t pt pid hs hm,
   BHTree.elec_theta0_leafSum t pt pid hs hc,
   BHTree.mag_theta0_leafSum t pt pid hs hc⟩

/-- A vector literal is zero exactly when its components vanish. -/
@[simp] theorem Vec3.mk_eq_zero (a b c : ℝ) :
    (⟨a, b, c⟩ : Vec3) = 0 ↔ a = 0 ∧ b = 0 ∧ c = 0 := by
  rw [show (0 : Vec3) = ⟨0, 0, 0⟩ from rfl, Vec3.mk.injEq]

/-- Witness for `theta0_leaf_occurrence_sum` on the concrete pair tree. -/
theorem theta0_leaf_occurrence_sum_witness :
    (pairTree 1 1).sizesNonneg
    ∧ (⟨2, 0, 0⟩ : Vec3) ∉ (pairTree 1 1).comList
    ∧ (⟨2, 0, 0⟩ : Vec3) ∉ (pairTree 1 1).ccList
    ∧ (pairTree 1 1).get_gravitational_field_exerted ⟨2, 0, 0⟩ 0 (-1)
        = (((pairTree 1 1).leafOccurrences.filter
              (fun p => p.ID ≠ (-1 : ℤ))).map
            (fun p => p.get_gravitational_field_exerted ⟨2, 0, 0⟩)).sum := by
  have hsz : (pairTree 1 1).sizesNonneg := by
    rw [pairTree, BHTree.sizesNonneg_node]
    refine ⟨by norm_num, ?_⟩
    intro c hc
    simp only [List.mem_cons, List.not_mem_nil, or_false] at hc
    rcases hc with h | h | h | h | h | h | h | h <;> subst h <;>
      (rw [BHTree.sizesNonneg_node]; exact ⟨by norm_num, by simp⟩)
  have hcm : (⟨2, 0, 0⟩ : Vec3) ∉ (pairTree 1 1).comList := by
    simp only [pairTree, BHTree.comList_node_eq, List.map_cons, List.map_nil,
      List.flatten, List.mem_cons, List.append_nil, List.not_mem_nil]
    norm_num [Vec3.mk.injEq]
  have hcc : (⟨2, 0, 0⟩ : Vec3) ∉ (pairTree 1 1).ccList := by
    simp only [pairTree, BHTree.ccList_node_eq, List.map_cons, List.map_nil,
      List.flatten, List.mem_cons, List.append_nil, List.not_mem_nil]
    norm_num [Vec3.mk.injEq, Vec3.mk_eq_zero]
  exact ⟨hsz, hcm, hcc,
    (theta0_leaf_occurrence_sum (pairTree 1 1) ⟨2, 0, 0⟩ (-1) hsz hcm hcc).1⟩

/-- Assembling a node from one particle with omitted bounds: the
inferred bounds are the degenerate box at the particle's position, the
size is 0, no children are created, and every aggregate center that is
defined falls at the particle (the center of charge falls back to the
zero vector for a chargeless particle). -/
theorem assembleNode_singleton (p : PointParticle)
    (mkKids : List PointParticle → Bounds → Bounds → Bounds → ℝ →
      Option (List BHTree)) :
    assembleNode [p] none none none mkKids
      = some (.mk ⟨p.position.x, p.position.x⟩ ⟨p.position.y, p.position.y⟩
          ⟨p.position.z, p.position.z⟩ 0 [p] p.MASS p.position p.CHARGE
          (if p.CHARGE ≠ 0 then p.position else 0)
          (if p.CHARGE ≠ 0 then p.velocity else 0) []) := by
  norm_num [assembleNode, resolveAxisBounds, inferAxisBounds, listMin,
    listMax, cube_bounds, filterWithin, particle_within_bounds, totalMass,
    massMoment, totalCharge, chargeMoment, currentMoment]
  refine ⟨fun hm => ?_, ?_, ?_⟩
  · ext <;> simp <;> field_simp
  all_goals
    split
  all_goals rename_i hq
  all_goals first
    | rfl
    | (ext <;> simp <;> field_simp)

/-- Building from a single particle succeeds at every fuel and yields
the degenerate leaf of `assembleNode_singleton`. -/
theorem mkNode_singleton (fuel : ℕ) (p : PointParticle) :
    mkNode fuel [p] none none none
      = some (.mk ⟨p.position.x, p.position.x⟩ ⟨p.position.y, p.position.y⟩
          ⟨p.position.z, p.position.z⟩ 0 [p] p.MASS p.position p.CHARGE
          (if p.CHARGE ≠ 0 then p.position else 0)
          (if p.CHARGE ≠ 0 then p.velocity else 0) []) := by
  cases fuel <;> simp only [mkNode] <;> exact assembleNode_singleton p _

/-- C3 amended: on leaf traversal paths the excluded particle
contributes nothing (the leaf loop filters it out by ID), no division by
zero occurs, and when the particle is alone in the tree every query at
its own position returns the zero vector for every theta; the
MAC-accepted approximate branch, however, uses cell aggregates that
include the excluded particle, so its result may depend on it. -/
theorem singleton_self_query_zero (fuel : ℕ) (p : PointParticle)
    (t : BHTree) (theta : ℝ)
    (h : mkNode fuel [p] none none none = some t) :
    t.get_gravitational_field_exerted p.position theta p.ID = 0
    ∧ t.get_electric_field_exerted p.position theta p.ID = 0
    ∧ t.get_magnetic_field_exerted p.position theta p.ID = 0 := by
  rw [mkNode_singleton, Option.some.injEq] at h
  subst h
  refine ⟨?_, ?_, ?_⟩
  · rw [BHTree.grav_node_eq]
    simp
  · rw [BHTree.elec_node_eq]
    by_cases hq : p.CHARGE ≠ 0
    · rw [if_pos hq]
      simp
    · rw [if_neg hq]
      push_neg at hq
      rw [Vec3.sub_zero']
      by_cases hp : p.position.norm = 0
      · rw [if_pos hp]
      · rw [if_neg hp]
        split
        · simp [hq]
        · simp
  · rw [BHTree.mag_node_eq]
    by_cases hq : p.CHARGE ≠ 0
    · rw [if_pos hq]
      simp
    · rw [if_neg hq]
      push_neg at hq
      rw [Vec3.sub_zero']
      by_cases hp : p.position.norm = 0
      · rw [if_pos hp]
      · rw [if_neg hp]
        split
        · simp [hq]
        · simp

/-- Witness for `singleton_self_query_zero`: a charged unit-mass
particle alone at the origin, queried at its own position with its own
ID and `theta = 1/2`. -/
theorem singleton_self_query_zero_witness :
    (mkNode 1 [PointParticle.init 0 0 0 1 1 0] none none none).map
        (fun t => t.get_gravitational_field_exerted 0 (1 / 2) 0)
      = some 0 := by
  rw [mkNode_singleton, Option.map_some', Option.some.injEq]
  exact (singleton_self_query_zero 1 (PointParticle.init 0 0 0 1 1 0) _
    (1 / 2) (mkNode_singleton 1 _)).1

/-- Subtracting from the zero vector negates. -/
@[simp] theorem Vec3.zero_sub' (v : Vec3) : (0 : Vec3) - v = -v := by
  ext <;> simp

/-- Componentwise negation of a vector literal. -/
@[simp] theorem Vec3.neg_mk (a b c : ℝ) :
    (-(⟨a, b, c⟩ : Vec3)) = ⟨-a, -b, -c⟩ := rfl

/-- C3 counterexample: querying the gravitational field at particle
`pairA`'s own position with `pairA`'s ID excluded and `theta = 10`
accepts the MAC at the root, whose aggregates include the excluded
particle. The result is `(8 G, 0, 0)` when `pairA` has mass 1 and
`(512 G, 0, 0)` when it has mass 7 — with the other particle and all
query arguments identical — so the returned field does contain a
contribution from the excluded particle. -/
theorem mac_branch_includes_excluded_particle :
    (mkNode 1 [pairA 1, pairB 1] none none none).map
        (fun t => t.get_gravitational_field_exerted (pairA 1).position 10
          (pairA 1).ID)
      = some ⟨8 * Gconst, 0, 0⟩
    ∧ (mkNode 1 [pairA 7, pairB 1] none none none).map
        (fun t => t.get_gravitational_field_exerted (pairA 7).position 10
          (pairA 7).ID)
      = some ⟨512 * Gconst, 0, 0⟩
    ∧ (⟨8 * Gconst, 0, 0⟩ : Vec3) ≠ ⟨512 * Gconst, 0, 0⟩ := by
  refine ⟨?_, ?_, ?_⟩
  · rw [pair_build 1 1 one_ne_zero one_ne_zero (by norm_num),
      Option.map_some', Option.some.injEq]
    norm_num [pairTree, pairA, pairB, PointParticle.init,
      BHTree.grav_node_eq, PointParticle.get_gravitational_field_exerted,
      Vec3.norm_xaxis, abs_of_nonneg, abs_of_nonpos]
    ring
  · rw [pair_build 7 1 (by norm_num) one_ne_zero (by norm_num),
      Option.map_some', Option.some.injEq]
    norm_num [pairTree, pairA, pairB, PointParticle.init,
      BHTree.grav_node_eq, PointParticle.get_gravitational_field_exerted,
      Vec3.norm_xaxis, abs_of_nonneg, abs_of_nonpos]
    ring
  · intro h
    have hx := congrArg Vec3.x h
    simp only [] at hx
    have := Gconst_pos
    linarith

/-- The running minimum is a lower bound of the seed element. -/
theorem listMin_le_seed (x : ℝ) (xs : List ℝ) : listMin x xs ≤ x := by
  induction xs generalizing x with
  | nil => simp [listMin]
  | cons a l ih =>
      have h := ih (min x a)
      simp only [listMin, List.foldl_cons] at h ⊢
      exact h.trans (min_le_left x a)

/-- The running minimum is a lower bound of every list element. -/
theorem listMin_le_mem (x y : ℝ) (xs : List ℝ) (hy : y ∈ xs) :
    listMin x xs ≤ y := by
  induction xs generalizing x with
  | nil => cases hy
  | cons a l ih =>
      rcases List.mem_cons.mp hy with h | h
      · subst h
        have h := listMin_le_seed (min x y) l
        simp only [listMin, List.foldl_cons] at h ⊢
        exact h.trans (min_le_right x y)
      · simpa only [listMin, List.foldl_cons] using ih (min x a) h

/-- The running maximum is an upper bound of the seed element. -/
theorem le_listMax_seed (x : ℝ) (xs : List ℝ) : x ≤ listMax x xs := by
  induction xs generalizing x with
  | nil => simp [listMax]
  | cons a l ih =>
      have h := ih (max x a)
      simp only [listMax, List.foldl_cons] at h ⊢
      exact (le_max_left x a).trans h

/-- The running maximum is an upper bound of every list element. -/
theorem le_listMax_mem (x y : ℝ) (xs : List ℝ) (hy : y ∈ xs) :
    y ≤ listMax x xs := by
  induction xs generalizing x with
  | nil => cases hy
  | cons a l ih =>
      rcases List.mem_cons.mp hy with h | h
      · subst h
        have h := le_listMax_seed (max x y) l
        simp only [listMax, List.foldl_cons] at h ⊢
        exact (le_max_right x y).trans h
      · simpa only [listMax, List.foldl_cons] using ih (max x a) h

/-- The inferred per-axis bounds contain every particle's coordinate. -/
theorem inferAxisBounds_cover (coord : PointParticle → ℝ)
    (particles : List PointParticle) (b : Bounds)
    (h : inferAxisBounds coord particles = some b) :
    ∀ q ∈ particles, b.lo ≤ coord q ∧ coord q ≤ b.hi := by
  match particles with
  | [] => cases h
  | p :: rest =>
      simp only [inferAxisBounds, Option.some.injEq] at h
      subst h
      intro q hq
      rcases List.mem_cons.mp hq with h | h
      · subst h
        exact ⟨listMin_le_seed _ _, le_listMax_seed _ _⟩
      · exact ⟨listMin_le_mem _ _ _ (List.mem_map_of_mem coord h),
          le_listMax_mem _ _ _ (List.mem_map_of_mem coord h)⟩

/-- Cubing the bounds preserves membership: the two smaller axes are
only ever widened symmetrically about the centroid. -/
theorem cube_bounds_cover (xB yB zB : Bounds) (p : PointParticle)
    (h : particle_within_bounds xB yB zB p) :
    particle_within_bounds (cube_bounds xB yB zB).xB
      (cube_bounds xB yB zB).yB (cube_bounds xB yB zB).zB p := by
  obtain ⟨h1, h2, h3, h4, h5, h6⟩ := h
  unfold cube_bounds
  simp only []
  split
  · exact ⟨h1, h2, h3, h4, h5, h6⟩
  · have hw : xB.hi - xB.lo ≤ max (xB.hi - xB.lo)
        (max (yB.hi - yB.lo) (zB.hi - zB.lo)) := le_max_left _ _
    have hl : yB.hi - yB.lo ≤ max (xB.hi - xB.lo)
        (max (yB.hi - yB.lo) (zB.hi - zB.lo)) :=
      (le_max_left _ _).trans (le_max_right _ _)
    have hh : zB.hi - zB.lo ≤ max (xB.hi - xB.lo)
        (max (yB.hi - yB.lo) (zB.hi - zB.lo)) :=
      (le_max_right _ _).trans (le_max_right _ _)
    unfold particle_within_bounds
    dsimp only
    refine ⟨?_, ?_, ?_, ?_, ?_, ?_⟩ <;> linarith

/-- Filtering keeps the whole list when every element is in bounds. -/
theorem filterWithin_eq_self (xB yB zB : Bounds)
    (particles : List PointParticle)
    (h : ∀ p ∈ particles, particle_within_bounds xB yB zB p) :
    filterWithin xB yB zB particles = particles := by
  induction particles with
  | nil => rfl
  | cons p rest ih =>
      rw [filterWithin, if_pos (h p (List.mem_cons_self p rest)),
        ih (fun q hq => h q (List.mem_cons_of_mem p hq))]

/-- What a successful `assembleNode` determines about the stored fields:
the resolved pre-cube bounds exist, the stored bounds/size come from
`cube_bounds`, the particle list is the filtered input, the aggregates
are computed from it, and children exist exactly under the subdivision
condition, coming from `mkKids`. -/
theorem assembleNode_fields (particles : List PointParticle)
    (xb? yb? zb? : Option Bounds)
    (mkKids : List PointParticle → Bounds → Bounds → Bounds → ℝ →
      Option (List BHTree)) (t : BHTree)
    (h : assembleNode particles xb? yb? zb? mkKids = some t) :
    ∃ xB0 yB0 zB0,
      resolveAxisBounds (fun p => p.position.x) particles xb? = some xB0
      ∧ resolveAxisBounds (fun p => p.position.y) particles yb? = some yB0
      ∧ resolveAxisBounds (fun p => p.position.z) particles zb? = some zB0
      ∧ t.xBounds = (cube_bounds xB0 yB0 zB0).xB
      ∧ t.yBounds = (cube_bounds xB0 yB0 zB0).yB
      ∧ t.zBounds = (cube_bounds xB0 yB0 zB0).zB
      ∧ t.SIZE = (cube_bounds xB0 yB0 zB0).size
      ∧ t.PARTICLES = filterWithin (cube_bounds xB0 yB0 zB0).xB
          (cube_bounds xB0 yB0 zB0).yB (cube_bounds xB0 yB0 zB0).zB particles
      ∧ t.TOTAL_MASS = totalMass t.PARTICLES
      ∧ t.CENTER_OF_MASS = (if totalMass t.PARTICLES ≠ 0
          then (1 / totalMass t.PARTICLES) • massMoment t.PARTICLES
          else (cube_bounds xB0 yB0 zB0).centroid)
      ∧ ((1 < t.PARTICLES.length ∧ 0 < (cube_bounds xB0 yB0 zB0).size) →
          mkKids t.PARTICLES (cube_bounds xB0 yB0 zB0).xB
            (cube_bounds xB0 yB0 zB0).yB (cube_bounds xB0 yB0 zB0).zB
            (cube_bounds xB0 yB0 zB0).size = some t.CHILD_NODES)
      ∧ (¬(1 < t.PARTICLES.length ∧ 0 < (cube_bounds xB0 yB0 zB0).size) →
          t.CHILD_NODES = []) := by
  unfold assembleNode at h
  cases hx : resolveAxisBounds (fun p => p.position.x) particles xb? with
  | none => rw [hx] at h; cases h
  | some xB0 =>
  cases hy : resolveAxisBounds (fun p => p.position.y) particles yb? with
  | none => rw [hx, hy] at h; cases h
  | some yB0 =>
  cases hz : resolveAxisBounds (fun p => p.position.z) particles zb? with
  | none => rw [hx, hy, hz] at h; cases h
  | some zB0 =>
  rw [hx, hy, hz] at h
  simp only [] at h
  refine ⟨xB0, yB0, zB0, rfl, rfl, rfl, ?_⟩
  split at h
  · next hcond =>
      cases hk : mkKids (filterWithin (cube_bounds xB0 yB0 zB0).xB
          (cube_bounds xB0 yB0 zB0).yB (cube_bounds xB0 yB0 zB0).zB particles)
          (cube_bounds xB0 yB0 zB0).xB (cube_bounds xB0 yB0 zB0).yB
          (cube_bounds xB0 yB0 zB0).zB (cube_bounds xB0 yB0 zB0).size with
      | none => rw [hk] at h; cases h
      | some kids =>
          rw [hk] at h
          rw [Option.some.injEq] at h
          subst h
          exact ⟨rfl, rfl, rfl, rfl, rfl, rfl, rfl,
            fun _ => by
              simp only [BHTree.PARTICLES, BHTree.CHILD_NODES]
              exact hk,
            fun hn => absurd hcond hn⟩
  · next hcond =>
      rw [Option.some.injEq] at h
      subst h
      exact ⟨rfl, rfl, rfl, rfl, rfl, rfl, rfl,
        fun hc => absurd hc hcond, fun _ => rfl⟩

/-- C6: when the root is built from a particle list with inferred
bounds, the inferred box (and its cubed widening) contains every input
particle, so the stored particle list is the whole input; hence
`TOTAL_MASS` is the sum of all input masses and, when that sum is
nonzero, `CENTER_OF_MASS` is the mass-weighted average of all input
positions. -/
theorem root_aggregates_from_build (fuel : ℕ)
    (particles : List PointParticle) (t : BHTree)
    (h : mkNode fuel particles none none none = some t) :
    t.TOTAL_MASS = totalMass particles
    ∧ (totalMass particles ≠ 0 →
        t.CENTER_OF_MASS = (1 / totalMass particles) • massMoment particles) := by
  have hex : ∃ mkKids, assembleNode particles none none none mkKids = some t := by
    cases fuel with
    | zero => exact ⟨_, by simpa only [mkNode] using h⟩
    | succ f => exact ⟨_, by simpa only [mkNode] using h⟩
  obtain ⟨mkKids, h'⟩ := hex
  obtain ⟨xB0, yB0, zB0, hx, hy, hz, _, _, _, _, hps, htm, hcom, _, _⟩ :=
    assembleNode_fields particles none none none mkKids t h'
  have hx' : inferAxisBounds (fun p => p.position.x) particles = some xB0 := hx
  have hy' : inferAxisBounds (fun p => p.position.y) particles = some yB0 := hy
  have hz' : inferAxisBounds (fun p => p.position.z) particles = some zB0 := hz
  have hcover : ∀ q ∈ particles, particle_within_bounds xB0 yB0 zB0 q := by
    intro q hq
    have h1 := inferAxisBounds_cover _ particles xB0 hx' q hq
    have h2 := inferAxisBounds_cover _ particles yB0 hy' q hq
    have h3 := inferAxisBounds_cover _ particles zB0 hz' q hq
    exact ⟨h1.1, h1.2, h2.1, h2.2, h3.1, h3.2⟩
  have hall : filterWithin (cube_bounds xB0 yB0 zB0).xB
      (cube_bounds xB0 yB0 zB0).yB (cube_bounds xB0 yB0 zB0).zB particles
        = particles :=
    filterWithin_eq_self _ _ _ _
      (fun p hp => cube_bounds_cover _ _ _ _ (hcover p hp))
  rw [hall] at hps
  rw [hps] at htm hcom
  refine ⟨htm, fun hm => ?_⟩
  rw [hcom, if_pos hm]

/-- Witness for `root_aggregates_from_build` on the concrete pair
build: total mass 2 and center of mass `(1/2, 0, 0)`. -/
theorem root_aggregates_from_build_witness :
    (pairTree 1 1).TOTAL_MASS = totalMass [pairA 1, pairB 1]
    ∧ (pairTree 1 1).CENTER_OF_MASS
        = (1 / totalMass [pairA 1, pairB 1]) • massMoment [pairA 1, pairB 1] := by
  have h := root_aggregates_from_build 1 [pairA 1, pairB 1] (pairTree 1 1)
    (pair_build 1 1 one_ne_zero one_ne_zero (by norm_num))
  exact ⟨h.1, h.2 (by norm_num [totalMass, pairA, pairB, PointParticle.init])⟩

namespace BHTree

/-- The cubic invariant: every node with children has exactly 8 of
them, each child cell has identical extents on all three axes equal to
half the parent's `SIZE`, and the same holds recursively below. -/
def cubicInvariant : BHTree → Prop
  | .mk _ _ _ size _ _ _ _ _ _ children =>
      (children ≠ [] →
        children.length = 8
        ∧ ∀ c ∈ children,
            c.xBounds.hi - c.xBounds.lo = size / 2
            ∧ c.yBounds.hi - c.yBounds.lo = size / 2
            ∧ c.zBounds.hi - c.zBounds.lo = size / 2
            ∧ c.SIZE = size / 2)
      ∧ ∀ c ∈ children.attach, cubicInvariant c.1
termination_by t => sizeOf t
decreasing_by
  have h := List.sizeOf_lt_of_mem c.2
  simp only [BHTree.mk.sizeOf_spec]
  omega

/-- Node form of `cubicInvariant`. -/
theorem cubicInvariant_node (xB yB zB : Bounds) (size : ℝ)
    (ps : List PointParticle) (tm : ℝ) (com : Vec3) (tc : ℝ) (cc ccv : Vec3)
    (children : List BHTree) :
    cubicInvariant (.mk xB yB zB size ps tm com tc cc ccv children)
      ↔ (children ≠ [] →
          children.length = 8
          ∧ ∀ c ∈ children,
              c.xBounds.hi - c.xBounds.lo = size / 2
              ∧ c.yBounds.hi - c.yBounds.lo = size / 2
              ∧ c.zBounds.hi - c.zBounds.lo = size / 2
              ∧ c.SIZE = size / 2)
        ∧ ∀ c ∈ children, cubicInvariant c := by
  rw [cubicInvariant]
  constructor
  · rintro ⟨h0, h⟩
    exact ⟨h0, fun c hc => h ⟨c, hc⟩ (List.mem_attach _ _)⟩
  · rintro ⟨h0, h⟩
    exact ⟨h0, fun c _ => h c.1 c.2⟩

end BHTree

/-- The octant list always has exactly 8 entries. -/
theorem octantBounds_length (xB yB zB : Bounds) (s : ℝ) :
    (octantBounds xB yB zB s).length = 8 := by
  simp [octantBounds]

/-- Every octant's bounds on every axis span exactly `s / 2`. -/
theorem octantBounds_extent (xB yB zB : Bounds) (s : ℝ)
    (b : Bounds × Bounds × Bounds) (hb : b ∈ octantBounds xB yB zB s) :
    b.1.hi - b.1.lo = s / 2
    ∧ b.2.1.hi - b.2.1.lo = s / 2
    ∧ b.2.2.hi - b.2.2.lo = s / 2 := by
  simp only [octantBounds, List.mem_flatMap, List.mem_map, List.mem_cons,
    List.not_mem_nil, or_false] at hb
  obtain ⟨lx, _, ly, _, lz, _, rfl⟩ := hb
  refine ⟨?_, ?_, ?_⟩ <;> (dsimp only; ring)

/-- A successful `seqOpt` is elementwise `some`. -/
theorem seqOpt_eq_some (l : List (Option BHTree)) (ks : List BHTree)
    (h : seqOpt l = some ks) : l = ks.map some := by
  induction l generalizing ks with
  | nil =>
      rw [seqOpt, Option.some.injEq] at h
      subst h
      rfl
  | cons o rest ih =>
      match o with
      | none => cases h
      | some t =>
          rw [seqOpt] at h
          cases hr : seqOpt rest with
          | none => rw [hr] at h; cases h
          | some ks' =>
              rw [hr, Option.map_some', Option.some.injEq] at h
              subst h
              rw [List.map_cons, ← ih ks' hr]

/-- Cubing bounds that are already a cube leaves them unchanged, with
`size` equal to the common extent. -/
theorem cube_bounds_of_cube (xB yB zB : Bounds) (e : ℝ)
    (hx : xB.hi - xB.lo = e) (hy : yB.hi - yB.lo = e)
    (hz : zB.hi - zB.lo = e) :
    (cube_bounds xB yB zB).xB = xB
    ∧ (cube_bounds xB yB zB).yB = yB
    ∧ (cube_bounds xB yB zB).zB = zB
    ∧ (cube_bounds xB yB zB).size = e := by
  unfold cube_bounds
  simp only []
  rw [if_pos (by constructor <;> linarith)]
  refine ⟨rfl, rfl, rfl, ?_⟩
  dsimp only
  rw [hx, hy, hz, max_self, max_self]

/-- A node built from explicit cube bounds keeps those bounds and gets
their common extent as its `SIZE`. -/
theorem mkNode_explicit_cube_fields (fuel : ℕ) (ps : List PointParticle)
    (b1 b2 b3 : Bounds) (c : BHTree) (e : ℝ)
    (h : mkNode fuel ps (some b1) (some b2) (some b3) = some c)
    (he1 : b1.hi - b1.lo = e) (he2 : b2.hi - b2.lo = e)
    (he3 : b3.hi - b3.lo = e) :
    c.xBounds = b1 ∧ c.yBounds = b2 ∧ c.zBounds = b3 ∧ c.SIZE = e := by
  have hex : ∃ mkKids, assembleNode ps (some b1) (some b2) (some b3) mkKids
      = some c := by
    cases fuel with
    | zero => exact ⟨_, by simpa only [mkNode] using h⟩
    | succ f => exact ⟨_, by simpa only [mkNode] using h⟩
  obtain ⟨mkKids, h'⟩ := hex
  obtain ⟨xB0, yB0, zB0, hx, hy, hz, hxB, hyB, hzB, hSIZE, _, _, _, _, _⟩ :=
    assembleNode_fields ps (some b1) (some b2) (some b3) mkKids c h'
  have hx0 : b1 = xB0 := by
    have : (some b1 : Option Bounds) = some xB0 := hx
    exact Option.some.injEq _ _ ▸ this
  have hy0 : b2 = yB0 := by
    have : (some b2 : Option Bounds) = some yB0 := hy
    exact Option.some.injEq _ _ ▸ this
  have hz0 : b3 = zB0 := by
    have : (some b3 : Option Bounds) = some zB0 := hz
    exact Option.some.injEq _ _ ▸ this
  subst hx0 hy0 hz0
  obtain ⟨c1, c2, c3, c4⟩ := cube_bounds_of_cube b1 b2 b3 e he1 he2 he3
  exact ⟨hxB.trans c1, hyB.trans c2, hzB.trans c3, hSIZE.trans c4⟩

/-- C8: on every node built by the constructor, children — whenever they
exist — number exactly 8, have identical extents on all three axes
equal to exactly half the parent's `SIZE`, and get that extent as their
own `SIZE`; and this holds recursively for every generated descendant. -/
theorem every_generated_child_is_half_cube (fuel : ℕ) :
    ∀ (particles : List PointParticle) (xb? yb? zb? : Option Bounds)
      (t : BHTree),
      mkNode fuel particles xb? yb? zb? = some t → t.cubicInvariant := by
  induction fuel with
  | zero =>
      intro particles xb? yb? zb? t h
      simp only [mkNode] at h
      obtain ⟨xB0, yB0, zB0, _, _, _, _, _, _, _, _, _, _, hkids, hnok⟩ :=
        assembleNode_fields particles xb? yb? zb? _ t h
      by_cases hcond : 1 < t.PARTICLES.length
          ∧ 0 < (cube_bounds xB0 yB0 zB0).size
      · exact absurd (hkids hcond) (by simp)
      · have hnil := hnok hcond
        obtain ⟨xB, yB, zB, size, ps, tm, com, tc, cc, ccv, children⟩ := t
        have hnil' : children = [] := hnil
        subst hnil'
        rw [BHTree.cubicInvariant_node]
        exact ⟨fun hne => absurd rfl hne, fun c hc => absurd hc (List.not_mem_nil c)⟩
  | succ fuel ih =>
      intro particles xb? yb? zb? t h
      simp only [mkNode] at h
      obtain ⟨xB0, yB0, zB0, _, _, _, _, _, _, hSIZE, _, _, _, hkids, hnok⟩ :=
        assembleNode_fields particles xb? yb? zb? _ t h
      by_cases hcond : 1 < t.PARTICLES.length
          ∧ 0 < (cube_bounds xB0 yB0 zB0).size
      · have hk := hkids hcond
        have hlist := seqOpt_eq_some _ _ hk
        have hlen : t.CHILD_NODES.length = 8 := by
          have hlens := congrArg List.length hlist
          simp only [List.length_map, octantBounds_length] at hlens
          omega
        have hmem : ∀ c ∈ t.CHILD_NODES,
            ∃ b ∈ octantBounds (cube_bounds xB0 yB0 zB0).xB
                (cube_bounds xB0 yB0 zB0).yB (cube_bounds xB0 yB0 zB0).zB
                (cube_bounds xB0 yB0 zB0).size,
              mkNode fuel t.PARTICLES (some b.1) (some b.2.1) (some b.2.2)
                = some c := by
          intro c hc
          have hsc : some c ∈ (octantBounds (cube_bounds xB0 yB0 zB0).xB
              (cube_bounds xB0 yB0 zB0).yB (cube_bounds xB0 yB0 zB0).zB
              (cube_bounds xB0 yB0 zB0).size).map
                (fun b => mkNode fuel t.PARTICLES
                  (some b.1) (some b.2.1) (some b.2.2)) := by
            rw [hlist]
            exact List.mem_map_of_mem some hc
          exact List.mem_map.mp hsc
        have hchild : ∀ c ∈ t.CHILD_NODES,
            (c.xBounds.hi - c.xBounds.lo = t.SIZE / 2
              ∧ c.yBounds.hi - c.yBounds.lo = t.SIZE / 2
              ∧ c.zBounds.hi - c.zBounds.lo = t.SIZE / 2
              ∧ c.SIZE = t.SIZE / 2)
            ∧ c.cubicInvariant := by
          intro c hc
          obtain ⟨b, hb, hbuild⟩ := hmem c hc
          obtain ⟨he1, he2, he3⟩ := octantBounds_extent _ _ _ _ b hb
          obtain ⟨hc1, hc2, hc3, hc4⟩ := mkNode_explicit_cube_fields fuel
            t.PARTICLES b.1 b.2.1 b.2.2 c ((cube_bounds xB0 yB0 zB0).size / 2)
            hbuild he1 he2 he3
          rw [hSIZE]
          exact ⟨⟨by rw [hc1, he1], by rw [hc2, he2], by rw [hc3, he3], hc4⟩,
            ih t.PARTICLES (some b.1) (some b.2.1) (some b.2.2) c hbuild⟩
        obtain ⟨xB, yB, zB, size, ps, tm, com, tc, cc, ccv, children⟩ := t
        rw [BHTree.cubicInvariant_node]
        exact ⟨fun _ => ⟨hlen, fun c hc => (hchild c hc).1⟩,
          fun c hc => (hchild c hc).2⟩
      · have hnil := hnok hcond
        obtain ⟨xB, yB, zB, size, ps, tm, com, tc, cc, ccv, children⟩ := t
        have hnil' : children = [] := hnil
        subst hnil'
        rw [BHTree.cubicInvariant_node]
        exact ⟨fun hne => absurd rfl hne, fun c hc => absurd hc (List.not_mem_nil c)⟩

/-- Witness for `every_generated_child_is_half_cube`: the pair build has
8 children, each an axis-aligned cube of edge 1/2 = SIZE/2. -/
theorem every_generated_child_is_half_cube_witness :
    (pairTree 1 1).cubicInvariant :=
  every_generated_child_is_half_cube 1 [pairA 1, pairB 1] none none none
    (pairTree 1 1) (pair_build 1 1 one_ne_zero one_ne_zero (by norm_num))

/-- Multiplying a vector by the scalar one. -/
@[simp] theorem Vec3.one_smul' (v : Vec3) : (1 : ℝ) • v = v := by
  ext <;> simp

/-- The cross product with the zero vector on the right. -/
@[simp] theorem Vec3.cross_zero (v : Vec3) : Vec3.cross v 0 = 0 := by
  ext <;> simp [Vec3.cross]

/-- On a zero-size leaf holding one particle, every field query with
`theta = 0` that excludes that particle's ID returns zero: the guard
fires at zero distance, the MAC test `0 < 0 * distance` never holds,
and the leaf loop filters out the only particle. -/
theorem leaf_size0_query_excluded_zero (xb yb zb : Bounds)
    (p : PointParticle) (tm : ℝ) (com : Vec3) (tc : ℝ) (cc ccv : Vec3)
    (pt : Vec3) :
    (BHTree.mk xb yb zb 0 [p] tm com tc cc ccv
        []).get_gravitational_field_exerted pt 0 p.ID = 0
    ∧ (BHTree.mk xb yb zb 0 [p] tm com tc cc ccv
        []).get_electric_field_exerted pt 0 p.ID = 0
    ∧ (BHTree.mk xb yb zb 0 [p] tm com tc cc ccv
        []).get_magnetic_field_exerted pt 0 p.ID = 0 := by
  refine ⟨?_, ?_, ?_⟩
  · rw [BHTree.grav_node_eq]
    split_ifs with h1 h2 h3
    · rfl
    · rw [zero_mul] at h2
      exact absurd h2 (lt_irrefl 0)
    · simp at h3
    · simp [List.filter]
  · rw [BHTree.elec_node_eq]
    split_ifs with h1 h2 h3
    · rfl
    · rw [zero_mul] at h2
      exact absurd h2 (lt_irrefl 0)
    · simp at h3
    · simp [List.filter]
  · rw [BHTree.mag_node_eq]
    split_ifs with h1 h2 h3
    · rfl
    · rw [zero_mul] at h2
      exact absurd h2 (lt_irrefl 0)
    · simp at h3
    · simp [List.filter]

/-- The test particle for the integrator: at the origin with velocity
`(1,0,0)`, unit mass, unit charge, ID 0. -/
noncomputable def p7 : PointParticle := PointParticle.init 0 ⟨1, 0, 0⟩ 0 1 1 0

/-- The test simulation: `theta = 0`, time step 1, no uniform
gravitational or electric field, uniform magnetic field `(0,0,1)`. -/
noncomputable def simB : Simulation :=
  Simulation.init 0 1 0 0 ⟨0, 0, 1⟩ [p7]

/-- The leaf the constructor builds from `[p7]`. -/
noncomputable def leafB : BHTree :=
  .mk ⟨0, 0⟩ ⟨0, 0⟩ ⟨0, 0⟩ 0 [p7] 1 0 1 0 ⟨1, 0, 0⟩ []

/-- Building from the single test particle yields `leafB`. -/
theorem leafB_build : mkNode 1 [p7] none none none = some leafB := by
  rw [mkNode_singleton]
  norm_num [p7, PointParticle.init, leafB]

/-- In `simB`, the net force on `p7` reduces to the Lorentz magnetic
term from the uniform field: the tree contributes nothing (theta is 0
and `p7`'s own ID is excluded) and the other uniform fields vanish. -/
theorem calc_force_simB (pos? vel? : Option Vec3) :
    simB.calculate_particle_force p7 leafB pos? vel?
      = Vec3.cross (vel?.getD p7.velocity) ⟨0, 0, 1⟩ := by
  unfold Simulation.calculate_particle_force
  simp only []
  have hq := leaf_size0_query_excluded_zero ⟨0, 0⟩ ⟨0, 0⟩ ⟨0, 0⟩ p7 1 0 1 0
    ⟨1, 0, 0⟩ (pos?.getD p7.position)
  have hθ : simB.theta = 0 := rfl
  have hL : leafB = BHTree.mk ⟨0, 0⟩ ⟨0, 0⟩ ⟨0, 0⟩ 0 [p7] 1 0 1 0 ⟨1, 0, 0⟩ [] :=
    rfl
  rw [hθ, hL, hq.1, hq.2.1, hq.2.2]
  simp only [PointParticle.get_force_experienced,
    PointParticle.get_gravitational_force_experienced,
    PointParticle.get_electrostatic_force_experienced,
    PointParticle.get_magnetic_force_experienced]
  have hg : simB.gravitational_field = 0 := rfl
  have he : simB.electric_field = 0 := rfl
  have hb : simB.magnetic_field = ⟨0, 0, 1⟩ := rfl
  have hm : p7.MASS = 1 := rfl
  have hc : p7.CHARGE = 1 := rfl
  rw [hg, he, hb, hm, hc]
  ext <;> simp [Vec3.cross]

/-- C7: the claim states one tick advances each particle by classic
RK4, re-querying the fields at the current state (stage 1), two
half-step states (stages 2, 3) and a full-step state (stage 4). In the
code, the stage-2 force call omits the sub-step position and velocity
(it reuses the current state, so stages 1 and 2 always coincide) and
the stage-4 call uses a half-step position; the full-step position is
computed but never used. For a unit charge in a uniform magnetic field
`(0,0,1)` with `dt = 1` the code's velocity update gives
`(3/4, -1, 0)` while the specified scheme gives `(13/24, -5/6, 0)`. -/
theorem rk4_stage_structure_bug :
    (mkNode 1 [p7] none none none).map
        (fun t => (Simulation.rk4Update simB t p7).2) = some ⟨3 / 4, -1, 0⟩
    ∧ (mkNode 1 [p7] none none none).map
        (fun t => (specRK4
            (fun x v => (1 / p7.MASS) •
              simB.calculate_particle_force p7 t (some x) (some v))
            simB.time_step_size p7.position p7.velocity).2)
        = some ⟨13 / 24, -(5 / 6), 0⟩
    ∧ (⟨3 / 4, -1, 0⟩ : Vec3) ≠ ⟨13 / 24, -(5 / 6), 0⟩ := by
  refine ⟨?_, ?_, ?_⟩
  · rw [leafB_build, Option.map_some', Option.some.injEq]
    simp only [Simulation.rk4Update, calc_force_simB]
    norm_num [simB, Simulation.init, p7, PointParticle.init, Vec3.cross]
  · rw [leafB_build, Option.map_some', Option.some.injEq]
    simp only [specRK4, calc_force_simB]
    norm_num [simB, Simulation.init, p7, PointParticle.init, Vec3.cross]
  · intro h
    have hx := congrArg Vec3.x h
    simp only [] at hx
    norm_num at hx
